import Mathlib

/-!
# Verification of the pyTrackMateXML lineage tracer

Shallow embedding of `trackmatexml/TrackmateXML.py`:

* `uniqueSources`, `analysetrackid`, `analysetrack` — the lineage tracer
  (`TrackmateXML.analysetrackid` / `TrackmateXML.analysetrack`);
* `getproperty` — property lookup (`TrackmateXML.getproperty`);
* `buildHeader`, `getspots` — spot-table construction (`TrackmateXML._getspots`).

Spot ids are modelled as `Int` (the source stores them as machine integers and
compares them by exact equality; `-1` is the missing-attribute sentinel).
Numeric cell values of the spot table are modelled as `Int` as well: the
lookup and filtering logic of the source never mixes distinct values, so the
exact scalar type is irrelevant; string-to-number conversion is abstracted by
predicates/partial functions passed in as parameters (`isFloat`, `parseVal`),
matching the spec's view of the parser as a black box producing raw strings.

Python's unbounded `while` loop is modelled with an explicit fuel parameter
(`runPass` for the inner `for` loop over the growing list of lineages,
`runLoop` for the outer `while any(...)` loop); `none` means the fuel ran
out.  Python exceptions are modelled by `Option`/nested `Option` results.
-/

/-- One traced lineage, the dictionary
`{"parent": _, "cell": _, "spotids": _, "track": _}` built by
`analysetrackid`. -/
structure Lineage where
  parent : Nat
  cell : Nat
  spotids : List Int
  track : Bool
deriving DecidableEq, Repr

/-- `np.setdiff1d(track[:, 0], track[:, 1], assume_unique=True)`:
the entries of the source column that do not occur in the target column,
in order, *without* deduplication (numpy does not deduplicate when
`assume_unique=True`). -/
def uniqueSources (track : List (Int × Int)) : List Int :=
  (track.map Prod.fst).filter (fun s => decide (¬ s ∈ track.map Prod.snd))

/-- The targets of all edges whose source is `v`, in edge-list order
(`np.argwhere(track[:, 0] == v)` followed by reading column 1). -/
def outTargets (track : List (Int × Int)) (v : Int) : List Int :=
  (track.filter (fun e => e.1 == v)).map Prod.snd

/-- Spawning of the "extra" branch lineages (`for i in range(1, targetidx.size)`):
one fresh lineage per target in `ts`, with the shared cell counter incremented
before each use; `dup` selects between a full copy of the history plus the
branch target and the bare `(source, target)` pair. -/
def spawnMany (dup : Bool) (parent : Nat) (hist : List Int) (lastid : Int) :
    List Int → Nat → List Lineage × Nat
  | [], cellid => ([], cellid)
  | t :: ts, cellid =>
    let l : Lineage :=
      ⟨parent, cellid + 1, if dup then hist ++ [t] else [lastid, t], true⟩
    let r := spawnMany dup parent hist lastid ts (cellid + 1)
    (l :: r.1, r.2)

/-- One iteration of the body of the `for traced_track in traced_tracks`
loop, acting on a single lineage: returns the updated lineage, the list of
newly appended lineages (in append order) and the new cell counter. -/
def stepLineage (track : List (Int × Int)) (dup brk : Bool)
    (l : Lineage) (cellid : Nat) : Lineage × List Lineage × Nat :=
  if l.track then
    let lastid := l.spotids.getLastD 0
    match outTargets track lastid with
    | [] => ({ l with track := false }, [], cellid)
    | [t] => ({ l with spotids := l.spotids ++ [t] }, [], cellid)
    | t0 :: t1 :: rest =>
      let s := spawnMany dup l.cell l.spotids lastid (t1 :: rest) cellid
      if brk then
        let child : Lineage :=
          ⟨l.cell, s.2 + 1, if dup then l.spotids ++ [t0] else [lastid, t0], true⟩
        ({ l with track := false }, s.1 ++ [child], s.2 + 1)
      else
        ({ l with spotids := l.spotids ++ [t0] }, s.1, s.2)
  else (l, [], cellid)

/-- The inner `for traced_track in traced_tracks` loop.  Python iterates by
index over the *growing* list, so lineages appended during the pass are
visited in the same pass; updated lineages replace their slot in place. -/
def runPass (track : List (Int × Int)) (dup brk : Bool) :
    Nat → List Lineage → Nat → Nat → Option (List Lineage × Nat)
  | 0, _, _, _ => none
  | fuel + 1, ts, i, cellid =>
    if h : i < ts.length then
      let r := stepLineage track dup brk (ts.get ⟨i, h⟩) cellid
      runPass track dup brk fuel (ts.set i r.1 ++ r.2.1) (i + 1) r.2.2
    else some (ts, cellid)

/-- The outer `while any([x["track"] for x in traced_tracks])` loop. -/
def runLoop (track : List (Int × Int)) (dup brk : Bool) :
    Nat → List Lineage → Nat → Option (List Lineage)
  | 0, _, _ => none
  | fuel + 1, ts, cellid =>
    if ts.any (fun l => l.track) then
      match runPass track dup brk (fuel + 1) ts 0 cellid with
      | some r => runLoop track dup brk fuel r.1 r.2
      | none => none
    else some ts

/-- `TrackmateXML.analysetrackid`.  A failed root-uniqueness check
(`unique_sources.size != 1`) returns the empty list; otherwise the initial
lineage is `track[np.argwhere(track[:, 0] == root), :].flatten()` and the
advance loop runs.  `none` means the fuel ran out (the Python loop would
still be running). -/
def analysetrackid (track : List (Int × Int)) (dup brk : Bool)
    (fuel : Nat) : Option (List Lineage) :=
  let us := uniqueSources track
  if us.length = 1 then
    let r := us.headD 0
    let init := ((track.filter (fun e => e.1 == r)).map (fun e => [e.1, e.2])).flatten
    runLoop track dup brk fuel [⟨0, 1, init, true⟩] 1
  else some []

/-- `TrackmateXML.analysetrack`: `trackname` is resolved with
`self.tracknames.index(trackname)` (which raises `ValueError` when absent,
modelled by the outer `none`), then the track is fetched from the parallel
`self.tracks` list and `analysetrackid` runs. -/
def analysetrack (tracknames : List String) (tracks : List (List (Int × Int)))
    (trackname : String) (dup brk : Bool) (fuel : Nat) :
    Option (Option (List Lineage)) :=
  if tracknames.contains trackname then
    match tracks.get? (tracknames.findIdx (· == trackname)) with
    | some track => some (analysetrackid track dup brk fuel)
    | none => none
  else none

/-- `TrackmateXML.getproperty`.  An absent property returns the empty array
(`some []`); an absent `"ID"` column (Python `list.index` raising) or a
spot id matching a number of rows different from one (numpy refusing the
assignment `res[i] = <non-scalar>`) raises, modelled by `none`. -/
def getproperty (spotheader : List String) (spots : List (List Int))
    (spotids : List Int) (prop : String) : Option (List Int) :=
  if ¬ spotheader.contains prop then some []
  else if ¬ spotheader.contains "ID" then none
  else
    let pidx := spotheader.findIdx (· == prop)
    let sidx := spotheader.findIdx (· == "ID")
    spotids.mapM (fun s =>
      match (spots.filter (fun row => row.getD sidx 0 == s)).map
          (fun row => row.getD pidx 0) with
      | [v] => some v
      | _ => none)

/-- The header-construction loop of `TrackmateXML._getspots`:

```
keys = [a for a in spot.attrib]
for k in keys:
    try:
        float(spot.attrib[k])
    except ValueError:
        keys.remove(k)
```

Python iterates by index over the list it is mutating: after `keys.remove(k)`
removes the element at the current position, the element that slides into
that position is skipped.  The fuel is one more than the initial length,
which is enough since the index grows by one per iteration and the list
never grows. -/
def pyRemoveLoop (conv : String → Bool) :
    Nat → List String → Nat → List String
  | 0, keys, _ => keys
  | fuel + 1, keys, i =>
    if h : i < keys.length then
      let k := keys.get ⟨i, h⟩
      if conv k then pyRemoveLoop conv fuel keys (i + 1)
      else pyRemoveLoop conv fuel (keys.erase k) (i + 1)
    else keys

/-- Header construction from the raw attribute dictionary of the first spot
(`_getspots` lines 167-175).  `isFloat v` abstracts "`float(v)` does not
raise `ValueError`". -/
def buildHeader (isFloat : String → Bool)
    (attribs : List (String × String)) : List String :=
  let keys := attribs.map Prod.fst
  pyRemoveLoop (fun k => isFloat ((attribs.lookup k).getD "")) (keys.length + 1) keys 0

/-- One row of the spot matrix: `self.spots[spotid, i] = spot.attrib.get(k, None)`
for each header key.  A missing key yields `None`, whose assignment into a
float matrix raises; a non-parsable value raises; both are `none`. -/
def buildRow (parseVal : String → Option Int) (keys : List String)
    (spot : List (String × String)) : Option (List Int) :=
  keys.mapM (fun k =>
    match spot.lookup k with
    | some v => parseVal v
    | none => none)

/-- The matrix-filling loop of `_getspots`: spots are written row by row at
the running index `spotid`.  When the header is empty no element assignment
happens (the inner `for i, k in enumerate(keys)` loop is empty), so the index
is incremented without any bounds check; otherwise writing past the declared
row count raises `IndexError` (`none`). -/
def fillSpots (parseVal : String → Option Int) (keys : List String) :
    List (List (String × String)) → List (List Int) → Nat → Option (List (List Int))
  | [], mat, _ => some mat
  | spot :: rest, mat, idx =>
    if keys.isEmpty then fillSpots parseVal keys rest mat (idx + 1)
    else if idx < mat.length then
      match buildRow parseVal keys spot with
      | some row => fillSpots parseVal keys rest (mat.set idx row) (idx + 1)
      | none => none
    else none

/-- `TrackmateXML._getspots`: `nspots` is the declared count
(`element.attrib.get("nspots", "0")`), `frames` the per-frame spot groups.
The header comes from the first spot of the first frame (`element[0][0]`,
raising when absent); the matrix is allocated as `np.zeros((nspots, len(keys)))`
and filled in encounter order. -/
def getspots (nspots : Nat) (isFloat : String → Bool)
    (parseVal : String → Option Int)
    (frames : List (List (List (String × String)))) :
    Option (List String × List (List Int)) :=
  match frames with
  | [] => none
  | f0 :: _ =>
    match f0 with
    | [] => none
    | spot0 :: _ =>
      let keys := buildHeader isFloat spot0
      let mat0 := List.replicate nspots (List.replicate keys.length 0)
      match fillSpots parseVal keys frames.flatten mat0 0 with
      | some mat => some (keys, mat)
      | none => none

/-- The multiset of consecutive pairs of a spot-id sequence: the edges a
lineage claims to traverse. -/
def lineagePairs (xs : List Int) : Multiset (Int × Int) :=
  (xs.zip xs.tail : List (Int × Int))

/-- The multiset of all edges covered by a list of lineages, with
multiplicity. -/
def resultEdges (res : List Lineage) : Multiset (Int × Int) :=
  (res.map (fun l => lineagePairs l.spotids)).sum

/-- The edges of a simple chain `v0 → v1 → ... → vm`. -/
def chainEdges : List Int → List (Int × Int)
  | a :: b :: t => (a, b) :: chainEdges (b :: t)
  | _ => []

/-- A track made of a simple chain ending in `X = vs.getLast`, followed by a
split of degree two at `X` into `y` (primary branch, listed first) and `z`. -/
def chainSplitTrack (vs : List Int) (y z : Int) : List (Int × Int) :=
  chainEdges vs ++ [(vs.getLastD 0, y), (vs.getLastD 0, z)]

/-- Modelled from the spec (§8 "Policy matrix"): the lineages the policy
matrix promises for a track with a single terminal split of degree two at
`X = vs.getLast` into primary branch `y` and extra branch `z`.  This is the
spec-side description the amended claim C1 is checked against. -/
def policyMatrixResult (vs : List Int) (y z : Int) (dup brk : Bool) :
    List Lineage :=
  let X := vs.getLastD 0
  if brk then
    [⟨0, 1, vs, false⟩,
     ⟨1, 2, if dup then vs ++ [z] else [X, z], false⟩,
     ⟨1, 3, if dup then vs ++ [y] else [X, y], false⟩]
  else
    [⟨0, 1, vs ++ [y], false⟩,
     ⟨1, 2, if dup then vs ++ [z] else [X, z], false⟩]

/-- Potential of a single spot with respect to a track, with fuel: one plus
the sum of the potentials of its successors.  Used as the termination
measure of the advance loop. -/
def wSpot (track : List (Int × Int)) : Nat → Int → Nat
  | 0, _ => 1
  | fuel + 1, v => 1 + ((outTargets track v).map (wSpot track fuel)).sum

/-- The potential of a spot, evaluated at the fuel prescribed by a height
function `h` (any function making every edge strictly decreasing, i.e. a
witness of acyclicity). -/
def wSpotH (track : List (Int × Int)) (h : Int → Nat) (v : Int) : Nat :=
  wSpot track (h v + 1) v

/-- Potential of a single lineage: active lineages carry the potential of
their last spot. -/
def lineageWeight (track : List (Int × Int)) (h : Int → Nat) (l : Lineage) : Nat :=
  if l.track then wSpotH track h (l.spotids.getLastD 0) else 0

/-- Total potential of a lineage list. -/
def measureState (track : List (Int × Int)) (h : Int → Nat)
    (ts : List Lineage) : Nat :=
  (ts.map (lineageWeight track h)).sum

/-- The multiset of edges of the subtree below a spot, with fuel. -/
def sSpot (track : List (Int × Int)) : Nat → Int → Multiset (Int × Int)
  | 0, _ => 0
  | fuel + 1, v =>
    (((track.filter (fun e => e.1 == v)).map
      (fun e => e ::ₘ sSpot track fuel e.2)).sum : Multiset (Int × Int))

/-- Subtree edge multiset at the fuel prescribed by a height function. -/
def sSpotH (track : List (Int × Int)) (h : Int → Nat) (v : Int) :
    Multiset (Int × Int) :=
  sSpot track (h v + 1) v

/-- Edge coverage of a single lineage: the edges already recorded, plus,
when still active, the edges still to be traversed below the last spot. -/
def lineageCover (track : List (Int × Int)) (h : Int → Nat) (l : Lineage) :
    Multiset (Int × Int) :=
  lineagePairs l.spotids +
    if l.track then sSpotH track h (l.spotids.getLastD 0) else 0

/-- Edge-coverage potential of a lineage list. -/
def coverState (track : List (Int × Int)) (h : Int → Nat)
    (ts : List Lineage) : Multiset (Int × Int) :=
  (ts.map (lineageCover track h)).sum

/-! ## Basic lemmas -/

lemma contains_iff_mem (l : List String) (a : String) :
    l.contains a = true ↔ a ∈ l := by
  simp [List.contains]

lemma dedup_length_one (l : List Int) (h : l.length = 1) :
    l.dedup.length = 1 := by
  obtain ⟨a, rfl⟩ := List.length_eq_one.mp h
  simp

/-- If the root-uniqueness check fails, `analysetrackid` returns the empty
list at once, with any fuel. -/
lemma analysetrackid_of_not_one (track : List (Int × Int)) (dup brk : Bool)
    (fuel : Nat) (h : (uniqueSources track).length ≠ 1) :
    analysetrackid track dup brk fuel = some [] := by
  unfold analysetrackid
  simp [h]

/-! ## Claims C2, C5, C7, C10 -/

/-- **C2** (confirmed).  For every track whose set difference of source spot
ids minus target spot ids does not have exactly one element, `analysetrackid`
returns the empty list without an unhandled error (the code's check
`unique_sources.size != 1` fires: the undeduplicated difference cannot have
length one when its deduplication does not), and `analysetrack` passes that
empty list through for any name resolving to this track.  No lineage is
ever built before the check. -/
theorem C2_malformed_root_empty (track : List (Int × Int))
    (hset : (uniqueSources track).dedup.length ≠ 1) :
    (∀ dup brk fuel, analysetrackid track dup brk fuel = some []) ∧
    (∀ names tracks nm dup brk fuel, nm ∈ names →
      tracks.get? (names.findIdx (· == nm)) = some track →
      analysetrack names tracks nm dup brk fuel = some (some [])) := by
  have hlen : (uniqueSources track).length ≠ 1 := by
    intro h
    exact hset (dedup_length_one _ h)
  refine ⟨fun dup brk fuel => analysetrackid_of_not_one track dup brk fuel hlen,
    fun names tracks nm dup brk fuel hnm hget => ?_⟩
  unfold analysetrack
  rw [if_pos ((contains_iff_mem names nm).mpr hnm), hget]
  show some (analysetrackid track dup brk fuel) = some (some [])
  rw [analysetrackid_of_not_one track dup brk fuel hlen]

/-- Witness for C2: a concrete two-root track. -/
theorem C2_witness :
    (∀ fuel, analysetrackid [(1, 2), (3, 4)] false false fuel = some []) ∧
    analysetrack ["t"] [[(1, 2), (3, 4)]] "t" false false 5 = some (some []) := by
  have h := C2_malformed_root_empty [(1, 2), (3, 4)] (by decide)
  exact ⟨fun fuel => h.1 false false fuel,
    h.2 ["t"] [[(1, 2), (3, 4)]] "t" false false 5 (by decide) (by decide)⟩

/-- **C5, counterexample.**  The claim says that a well-formed track whose
root has `k ≥ 2` outgoing edges is extended along all `k` out-edges with the
usual split logic.  On the track `[(1,2),(1,3)]` (one root, two out-edges)
the code instead returns the empty list: `np.setdiff1d` with
`assume_unique=True` keeps both occurrences of the root, so the
`unique_sources.size != 1` guard fires (size 2) before any lineage exists. -/
theorem C5_counterexample :
    analysetrackid [(1, 2), (1, 3)] false false 0 = some [] ∧
    (uniqueSources [(1, 2), (1, 3)]).length = 2 := by decide

/-- **C5** (corrected).  Amended claim: for every track whose root (a source
id that never occurs as a target) has `k ≥ 2` outgoing edges, `analysetrackid`
returns the empty list for every policy combination — the multiset source
minus target difference has `k ≥ 2` elements, so the topology guard fires and
the root's first hop is never traced at all. -/
theorem C5_amended_root_split_empty (track : List (Int × Int)) (r : Int)
    (hr : ¬ r ∈ track.map Prod.snd)
    (hk : 2 ≤ (track.map Prod.fst).count r) (dup brk : Bool) (fuel : Nat) :
    analysetrackid track dup brk fuel = some [] := by
  apply analysetrackid_of_not_one
  have hcount : (uniqueSources track).count r = (track.map Prod.fst).count r := by
    unfold uniqueSources
    rw [List.count_filter]
    simp [hr]
  have h2 : 2 ≤ (uniqueSources track).length :=
    le_trans (hcount ▸ hk) (List.count_le_length r _)
  omega

/-- Witness for C5: the same degenerate shape with an interior chain. -/
theorem C5_amended_witness :
    analysetrackid [(5, 6), (5, 7), (6, 8)] true true 9 = some [] :=
  C5_amended_root_split_empty [(5, 6), (5, 7), (6, 8)] 5 (by decide) (by decide)
    true true 9

/-- **C7** (confirmed).  `getproperty` on a property name absent from the
spot header returns the empty array (`some []`) and raises nothing; the
embedding is a pure function of the loaded state, so the header, spot table
and tracks are untouched by construction. -/
theorem C7_unknown_property_empty (header : List String)
    (spots : List (List Int)) (ids : List Int) (prop : String)
    (hp : ¬ prop ∈ header) :
    getproperty header spots ids prop = some [] := by
  unfold getproperty
  rw [if_pos]
  intro hc
  exact hp ((contains_iff_mem header prop).mp hc)

/-- Witness for C7. -/
theorem C7_witness :
    getproperty ["ID", "FRAME"] [[1, 0], [2, 1]] [1, 2] "MEAN_INTENSITY" = some [] :=
  C7_unknown_property_empty ["ID", "FRAME"] [[1, 0], [2, 1]] [1, 2]
    "MEAN_INTENSITY" (by decide)

/-- **C10** (confirmed).  `analysetrack` on a track name that does not occur
in the loaded name list raises (`self.tracknames.index` throws `ValueError`,
modelled by `none`) instead of returning an empty list, for every policy
combination; so an empty result can only come from the topology check of an
existing track. -/
theorem C10_unknown_name_raises (names : List String)
    (tracks : List (List (Int × Int))) (nm : String) (dup brk : Bool)
    (fuel : Nat) (h : ¬ nm ∈ names) :
    analysetrack names tracks nm dup brk fuel = none := by
  unfold analysetrack
  rw [if_neg]
  intro hc
  exact h ((contains_iff_mem names nm).mp hc)

/-- Witness for C10. -/
theorem C10_witness :
    analysetrack ["Track_0", "Track_1"] [[(1, 2)], [(3, 4)]] "Track_2"
      false false 7 = none :=
  C10_unknown_name_raises ["Track_0", "Track_1"] [[(1, 2)], [(3, 4)]]
    "Track_2" false false 7 (by decide)

/-! ## Claim C3 -/

/-- **C3** (code bug).  The claim (and the code's own comment
"remove keys we cannot convert to floats") say the header keeps exactly the
attribute names whose first-spot value converts, in order.  The loop
`for k in keys: ... keys.remove(k)` mutates the list under the iterator:
whenever an element is removed, its successor slides into the current index
and is skipped.  On a first spot with two consecutive non-numeric attributes
`("A","x"), ("B","y")` followed by a numeric `("ID","3")`, the code keeps
`"B"` in the header: `buildHeader` yields `["B","ID"]`, while the documented
filter yields `["ID"]`. -/
theorem C3_code_eval :
    buildHeader (fun v => v == "3") [("A", "x"), ("B", "y"), ("ID", "3")] =
      ["B", "ID"] ∧
    (([("A", "x"), ("B", "y"), ("ID", "3")].filter
        (fun kv => kv.2 == "3")).map Prod.fst = ["ID"]) ∧
    (["B", "ID"] : List String) ≠ ["ID"] := by decide

/-! ## Claim C6 -/

lemma mapM_eq_some_map {α β : Type} (f : α → Option β) (g : α → β)
    (l : List α) (h : ∀ a ∈ l, f a = some (g a)) :
    l.mapM f = some (l.map g) := by
  induction l with
  | nil => rfl
  | cons a t ih =>
    rw [List.mapM_cons, h a (List.mem_cons_self a t),
      ih (fun b hb => h b (List.mem_cons_of_mem a hb))]
    rfl

lemma map_getD_int (g : Int → Int) (l : List Int) (i : Nat)
    (hi : i < l.length) : (l.map g).getD i 0 = g (l.getD i 0) := by
  rw [List.getD_eq_getElem _ _ (by simpa using hi),
    List.getD_eq_getElem _ _ hi, List.getElem_map]

/-- **C6** (confirmed).  When every requested spot id matches exactly one row
of the spot table on the `"ID"` column and the requested property is in the
header, `getproperty` returns an array of the same length as the id list
whose `i`-th entry is the property column of the row matching the `i`-th id.
Cell access is modelled with `getD` (numpy rows are rectangular, so the
default is never taken for well-formed tables). -/
theorem C6_getproperty_trace (header : List String) (spots : List (List Int))
    (spotids : List Int) (prop : String)
    (hp : prop ∈ header) (hid : "ID" ∈ header)
    (huni : ∀ s ∈ spotids,
      (spots.filter
        (fun row => row.getD (header.findIdx (· == "ID")) 0 == s)).length = 1) :
    ∃ res, getproperty header spots spotids prop = some res ∧
      res.length = spotids.length ∧
      ∀ i, i < spotids.length → ∀ row ∈ spots,
        row.getD (header.findIdx (· == "ID")) 0 = spotids.getD i 0 →
        res.getD i 0 = row.getD (header.findIdx (· == prop)) 0 := by
  set sidx := header.findIdx (· == "ID") with hsidx
  set pidx := header.findIdx (· == prop) with hpidx
  let g : Int → Int := fun s =>
    ((spots.filter (fun row => row.getD sidx 0 == s)).map
      (fun row => row.getD pidx 0)).headD 0
  have hgs : ∀ s row0,
      spots.filter (fun row => row.getD sidx 0 == s) = [row0] →
      g s = row0.getD pidx 0 := by
    intro s row0 h0
    show ((spots.filter (fun row => row.getD sidx 0 == s)).map
      (fun row => row.getD pidx 0)).headD 0 = row0.getD pidx 0
    rw [h0]
    rfl
  have hmain : getproperty header spots spotids prop =
      some (spotids.map g) := by
    unfold getproperty
    rw [if_neg (by simp [contains_iff_mem, hp]),
      if_neg (by simp [contains_iff_mem, hid])]
    apply mapM_eq_some_map
    intro s hs
    obtain ⟨row0, hrow0⟩ := List.length_eq_one.mp (huni s hs)
    rw [← hsidx, ← hpidx, hrow0, hgs s row0 hrow0]
    rfl
  refine ⟨spotids.map g, hmain, by simp, ?_⟩
  intro i hi row hrow hmatch
  have hsmem : spotids.getD i 0 ∈ spotids := by
    rw [List.getD_eq_getElem _ _ hi]
    exact List.getElem_mem hi
  obtain ⟨row0, hrow0⟩ := List.length_eq_one.mp (huni (spotids.getD i 0) hsmem)
  have hrmem : row ∈ spots.filter
      (fun r => r.getD sidx 0 == (spotids.getD i 0)) := by
    rw [List.mem_filter]
    exact ⟨hrow, by simpa using hmatch⟩
  rw [hrow0, List.mem_singleton] at hrmem
  subst hrmem
  rw [map_getD_int g spotids i hi, hgs _ row hrow0]

/-- Witness for C6 on a concrete two-row table. -/
theorem C6_witness :
    ∃ res, getproperty ["ID", "X"] [[1, 10], [2, 20]] [2, 1] "X" = some res ∧
      res.length = ([2, 1] : List Int).length ∧
      ∀ i, i < ([2, 1] : List Int).length → ∀ row ∈ [[1, 10], [2, 20]],
        row.getD ((["ID", "X"] : List String).findIdx (· == "ID")) 0 =
          ([2, 1] : List Int).getD i 0 →
        res.getD i 0 =
          row.getD ((["ID", "X"] : List String).findIdx (· == "X")) 0 :=
  C6_getproperty_trace ["ID", "X"] [[1, 10], [2, 20]] [2, 1] "X"
    (by decide) (by decide) (by decide)

/-! ## Claim C9 -/

/-- With a nonempty header, writing more spots than allocated rows runs out
of bounds: the filling loop raises (returns `none`). -/
lemma fillSpots_overflow (parseVal : String → Option Int) (keys : List String)
    (hk : keys ≠ []) :
    ∀ (spotsIn : List (List (String × String))) (mat : List (List Int))
      (idx : Nat), idx ≤ mat.length → mat.length < idx + spotsIn.length →
      fillSpots parseVal keys spotsIn mat idx = none := by
  intro spotsIn
  induction spotsIn with
  | nil =>
    intro mat idx h1 h2
    rw [List.length_nil, Nat.add_zero] at h2
    exact absurd h2 (Nat.not_lt.mpr h1)
  | cons spot rest ih =>
    intro mat idx h1 h2
    unfold fillSpots
    rw [if_neg (by simpa [List.isEmpty_iff] using hk)]
    by_cases hlt : idx < mat.length
    · rw [if_pos hlt]
      cases hrow : buildRow parseVal keys spot with
      | none => rfl
      | some row =>
        apply ih
        · rw [List.length_set]; omega
        · rw [List.length_set]
          rw [List.length_cons] at h2
          omega
    · rw [if_neg hlt]

/-- When at least as many rows are allocated as spots encountered and every
row converts, the filling loop succeeds and keeps the allocated row count. -/
lemma fillSpots_complete (parseVal : String → Option Int) (keys : List String) :
    ∀ (spotsIn : List (List (String × String))) (mat : List (List Int))
      (idx : Nat),
      (∀ spot ∈ spotsIn, ∃ row, buildRow parseVal keys spot = some row) →
      (keys.isEmpty = false → idx + spotsIn.length ≤ mat.length) →
      ∃ mat2, fillSpots parseVal keys spotsIn mat idx = some mat2 ∧
        mat2.length = mat.length := by
  intro spotsIn
  induction spotsIn with
  | nil => intro mat idx _ _; exact ⟨mat, rfl, rfl⟩
  | cons spot rest ih =>
    intro mat idx hconv hbound
    unfold fillSpots
    by_cases hk : keys.isEmpty
    · rw [if_pos hk]
      apply ih _ _ (fun s hs => hconv s (List.mem_cons_of_mem spot hs))
      intro hfalse
      rw [hk] at hfalse
      exact absurd hfalse (by decide)
    · have hk2 : keys.isEmpty = false := by
        cases h : keys.isEmpty
        · rfl
        · exact absurd h hk
      rw [if_neg hk]
      have hle := hbound hk2
      rw [List.length_cons] at hle
      have hlt : idx < mat.length := by omega
      rw [if_pos hlt]
      obtain ⟨row, hrow⟩ := hconv spot (List.mem_cons_self spot rest)
      rw [hrow]
      obtain ⟨mat2, hm, hlen⟩ := ih (mat.set idx row) (idx + 1)
        (fun s hs => hconv s (List.mem_cons_of_mem spot hs))
        (fun _ => by rw [List.length_set]; omega)
      exact ⟨mat2, hm, by rwa [List.length_set] at hlen⟩

/-- Unfolding of `getspots` on a shape-exposed input. -/
lemma getspots_cons (nspots : Nat) (isFloat : String → Bool)
    (parseVal : String → Option Int) (spot0 : List (String × String))
    (f0 : List (List (String × String)))
    (fr : List (List (List (String × String)))) :
    getspots nspots isFloat parseVal ((spot0 :: f0) :: fr) =
      match fillSpots parseVal (buildHeader isFloat spot0)
          (((spot0 :: f0) :: fr).flatten)
          (List.replicate nspots
            (List.replicate (buildHeader isFloat spot0).length 0)) 0 with
      | some mat => some (buildHeader isFloat spot0, mat)
      | none => none := rfl

/-- **C9, counterexample.**  The claim says any mismatch between the declared
and the encountered spot count makes the load fail.  With `nspots = 2`
declared and a single encountered spot `("ID", "1")`, `_getspots` completes
without error: the matrix keeps the declared two rows, the second one all
zeros, so the row count (2) disagrees with the encountered count (1). -/
theorem C9_counterexample :
    getspots 2 (fun v => v == "1") (fun s => if s == "1" then some 1 else none)
      [[[("ID", "1")]]] = some (["ID"], [[1], [0]]) ∧
    ([[[("ID", "1")]]] : List (List (List (String × String)))).flatten.length = 1 ∧
    (1 : Nat) ≠ 2 := by decide

/-- **C9** (corrected).  Amended claim: the load fails (raises) whenever
*more* spots are encountered than declared (and the header is nonempty — an
all-discarded header performs no matrix writes at all, hence no bounds
check); when at most as many spots are encountered as declared and all
values convert, the load completes silently and the spot table keeps the
declared row count — disagreeing with the encountered count whenever fewer
were encountered.  Stated on the first-frame/first-spot decomposition
`frames = (spot0 :: f0) :: fr` that `_getspots` itself requires
(`element[0][0]`). -/
theorem C9_amended_spotcount (nspots : Nat) (isFloat : String → Bool)
    (parseVal : String → Option Int) (spot0 : List (String × String))
    (f0 : List (List (String × String)))
    (fr : List (List (List (String × String))))
    (hne : buildHeader isFloat spot0 ≠ []) :
    (nspots < ((spot0 :: f0) :: fr).flatten.length →
      getspots nspots isFloat parseVal ((spot0 :: f0) :: fr) = none) ∧
    (((spot0 :: f0) :: fr).flatten.length ≤ nspots →
      (∀ spot ∈ ((spot0 :: f0) :: fr).flatten,
        ∃ row, buildRow parseVal (buildHeader isFloat spot0) spot = some row) →
      ∃ mat, getspots nspots isFloat parseVal ((spot0 :: f0) :: fr) =
          some (buildHeader isFloat spot0, mat) ∧ mat.length = nspots) := by
  constructor
  · intro hover
    rw [getspots_cons]
    rw [fillSpots_overflow parseVal (buildHeader isFloat spot0) hne _ _ 0
      (by omega) (by rw [List.length_replicate, Nat.zero_add]; exact hover)]
  · intro hunder hconv
    rw [getspots_cons]
    obtain ⟨mat2, hm, hlen⟩ := fillSpots_complete parseVal
      (buildHeader isFloat spot0) (((spot0 :: f0) :: fr).flatten)
      (List.replicate nspots
        (List.replicate (buildHeader isFloat spot0).length 0)) 0 hconv
      (fun _ => by rw [List.length_replicate, Nat.zero_add]; exact hunder)
    rw [hm]
    exact ⟨mat2, rfl, by rw [hlen, List.length_replicate]⟩

/-- Witness for C9 (overflow direction at a concrete input). -/
theorem C9_amended_witness :
    getspots 0 (fun v => v == "1") (fun s => if s == "1" then some 1 else none)
      [[[("ID", "1")]]] = none :=
  (C9_amended_spotcount 0 (fun v => v == "1")
    (fun s => if s == "1" then some 1 else none) [("ID", "1")] [] []
    (by decide)).1 (by decide)

/-! ## Termination machinery for the advance loop (C8, C4) -/

lemma mem_outTargets_edge (track : List (Int × Int)) (v t : Int)
    (ht : t ∈ outTargets track v) : (v, t) ∈ track := by
  unfold outTargets at ht
  obtain ⟨e, he, rfl⟩ := List.mem_map.mp ht
  obtain ⟨he2, hbeq⟩ := List.mem_filter.mp he
  have h1 : e.1 = v := by simpa using hbeq
  rw [← h1, Prod.mk.eta]
  exact he2

lemma wSpot_stable (track : List (Int × Int)) (h : Int → Nat)
    (hdec : ∀ e ∈ track, h e.2 < h e.1) :
    ∀ n v f g, h v ≤ n → h v < f → h v < g →
      wSpot track f v = wSpot track g v := by
  intro n
  induction n with
  | zero =>
    intro v f g hv hf hg
    obtain ⟨f2, rfl⟩ : ∃ f2, f = f2 + 1 := ⟨f - 1, by omega⟩
    obtain ⟨g2, rfl⟩ : ∃ g2, g = g2 + 1 := ⟨g - 1, by omega⟩
    unfold wSpot
    congr 1
    apply congrArg
    apply List.map_congr_left
    intro t ht
    have hlt : h t < h v := hdec (v, t) (mem_outTargets_edge track v t ht)
    omega
  | succ n ih =>
    intro v f g hv hf hg
    obtain ⟨f2, rfl⟩ : ∃ f2, f = f2 + 1 := ⟨f - 1, by omega⟩
    obtain ⟨g2, rfl⟩ : ∃ g2, g = g2 + 1 := ⟨g - 1, by omega⟩
    unfold wSpot
    congr 1
    apply congrArg
    apply List.map_congr_left
    intro t ht
    have hlt : h t < h v := hdec (v, t) (mem_outTargets_edge track v t ht)
    exact ih t f2 g2 (by omega) (by omega) (by omega)

lemma wSpotH_eq (track : List (Int × Int)) (h : Int → Nat)
    (hdec : ∀ e ∈ track, h e.2 < h e.1) (v : Int) :
    wSpotH track h v = 1 + ((outTargets track v).map (wSpotH track h)).sum := by
  have hunf : wSpot track (h v + 1) v =
      1 + ((outTargets track v).map (wSpot track (h v))).sum := rfl
  unfold wSpotH
  rw [hunf]
  congr 1
  apply congrArg
  apply List.map_congr_left
  intro t ht
  have hlt : h t < h v := hdec (v, t) (mem_outTargets_edge track v t ht)
  exact wSpot_stable track h hdec (h t) t (h v) (h t + 1) (le_refl _) hlt (by omega)

lemma wSpotH_pos (track : List (Int × Int)) (h : Int → Nat) (v : Int) :
    1 ≤ wSpotH track h v := by
  unfold wSpotH wSpot
  omega

lemma stepLineage_inactive (track : List (Int × Int)) (dup brk : Bool)
    (l : Lineage) (cell : Nat) (hl : l.track = false) :
    stepLineage track dup brk l cell = (l, [], cell) := by
  unfold stepLineage
  rw [hl]
  rfl

lemma stepLineage_terminal (track : List (Int × Int)) (dup brk : Bool)
    (l : Lineage) (cell : Nat) (hl : l.track = true)
    (hout : outTargets track (l.spotids.getLastD 0) = []) :
    stepLineage track dup brk l cell = ({ l with track := false }, [], cell) := by
  unfold stepLineage
  rw [hl]
  simp only [eq_self_iff_true, if_true, hout]

lemma stepLineage_extend (track : List (Int × Int)) (dup brk : Bool)
    (l : Lineage) (cell : Nat) (t : Int) (hl : l.track = true)
    (hout : outTargets track (l.spotids.getLastD 0) = [t]) :
    stepLineage track dup brk l cell =
      ({ l with spotids := l.spotids ++ [t] }, [], cell) := by
  unfold stepLineage
  rw [hl]
  simp only [eq_self_iff_true, if_true, hout]

lemma stepLineage_split_keep (track : List (Int × Int)) (dup : Bool)
    (l : Lineage) (cell : Nat) (t0 t1 : Int) (rest : List Int)
    (hl : l.track = true)
    (hout : outTargets track (l.spotids.getLastD 0) = t0 :: t1 :: rest) :
    stepLineage track dup false l cell =
      ({ l with spotids := l.spotids ++ [t0] },
       (spawnMany dup l.cell l.spotids (l.spotids.getLastD 0) (t1 :: rest) cell).1,
       (spawnMany dup l.cell l.spotids (l.spotids.getLastD 0) (t1 :: rest) cell).2) := by
  unfold stepLineage
  rw [hl]
  simp only [eq_self_iff_true, if_true, hout]
  rw [if_neg (by simp)]

lemma stepLineage_split_break (track : List (Int × Int)) (dup : Bool)
    (l : Lineage) (cell : Nat) (t0 t1 : Int) (rest : List Int)
    (hl : l.track = true)
    (hout : outTargets track (l.spotids.getLastD 0) = t0 :: t1 :: rest) :
    stepLineage track dup true l cell =
      ({ l with track := false },
       (spawnMany dup l.cell l.spotids (l.spotids.getLastD 0) (t1 :: rest) cell).1
         ++ [⟨l.cell,
              (spawnMany dup l.cell l.spotids (l.spotids.getLastD 0) (t1 :: rest) cell).2 + 1,
              if dup then l.spotids ++ [t0] else [l.spotids.getLastD 0, t0], true⟩],
       (spawnMany dup l.cell l.spotids (l.spotids.getLastD 0) (t1 :: rest) cell).2 + 1) := by
  unfold stepLineage
  rw [hl]
  simp only [eq_self_iff_true, if_true, hout]

lemma spawnMany_length (dup : Bool) (parent : Nat) (hist : List Int)
    (lastid : Int) : ∀ (ts : List Int) (cell : Nat),
    (spawnMany dup parent hist lastid ts cell).1.length = ts.length := by
  intro ts
  induction ts with
  | nil => intro cell; rfl
  | cons t ts ih =>
    intro cell
    unfold spawnMany
    simp only [List.length_cons]
    rw [ih (cell + 1)]

lemma spawnMany_weight (track : List (Int × Int)) (h : Int → Nat) (dup : Bool)
    (parent : Nat) (hist : List Int) (lastid : Int) :
    ∀ (ts : List Int) (cell : Nat),
    ((spawnMany dup parent hist lastid ts cell).1.map
      (lineageWeight track h)).sum = (ts.map (wSpotH track h)).sum := by
  intro ts
  induction ts with
  | nil => intro cell; rfl
  | cons t ts ih =>
    intro cell
    unfold spawnMany
    simp only [List.map_cons, List.sum_cons]
    rw [ih (cell + 1)]
    congr 1
    unfold lineageWeight
    simp only [if_true]
    cases dup with
    | false => rfl
    | true =>
      simp only [if_true]
      rw [List.getLastD_concat]

lemma step_new_length (track : List (Int × Int)) (dup brk : Bool)
    (l : Lineage) (cell : Nat) :
    (stepLineage track dup brk l cell).2.1.length ≤ track.length := by
  have houtlen : ∀ v, (outTargets track v).length ≤ track.length := by
    intro v
    unfold outTargets
    rw [List.length_map]
    exact List.length_filter_le _ _
  cases hl : l.track with
  | false => rw [stepLineage_inactive track dup brk l cell hl]; simp
  | true =>
    cases hout : outTargets track (l.spotids.getLastD 0) with
    | nil => rw [stepLineage_terminal track dup brk l cell hl hout]; simp
    | cons t0 rest =>
      cases rest with
      | nil => rw [stepLineage_extend track dup brk l cell t0 hl hout]; simp
      | cons t1 rest2 =>
        have hb := houtlen (l.spotids.getLastD 0)
        rw [hout] at hb
        simp only [List.length_cons] at hb
        cases brk with
        | false =>
          rw [stepLineage_split_keep track dup l cell t0 t1 rest2 hl hout]
          show (spawnMany dup l.cell l.spotids (l.spotids.getLastD 0)
            (t1 :: rest2) cell).1.length ≤ track.length
          rw [spawnMany_length]
          simp only [List.length_cons]
          omega
        | true =>
          rw [stepLineage_split_break track dup l cell t0 t1 rest2 hl hout]
          show ((spawnMany dup l.cell l.spotids (l.spotids.getLastD 0)
              (t1 :: rest2) cell).1 ++
            ([⟨l.cell,
              (spawnMany dup l.cell l.spotids (l.spotids.getLastD 0)
                (t1 :: rest2) cell).2 + 1,
              if dup then l.spotids ++ [t0] else [l.spotids.getLastD 0, t0],
              true⟩] : List Lineage)).length ≤ track.length
          rw [List.length_append, spawnMany_length]
          simp only [List.length_cons, List.length_nil, List.length_singleton]
          omega

lemma lineageWeight_true (track : List (Int × Int)) (h : Int → Nat)
    (l : Lineage) (hl : l.track = true) :
    lineageWeight track h l = wSpotH track h (l.spotids.getLastD 0) := by
  unfold lineageWeight
  rw [hl]
  simp

lemma lineageWeight_false (track : List (Int × Int)) (h : Int → Nat)
    (l : Lineage) (hl : l.track = false) :
    lineageWeight track h l = 0 := by
  unfold lineageWeight
  rw [hl]
  simp

lemma step_weight (track : List (Int × Int)) (h : Int → Nat)
    (hdec : ∀ e ∈ track, h e.2 < h e.1) (dup brk : Bool) (l : Lineage)
    (cell : Nat) (hl : l.track = true) :
    lineageWeight track h (stepLineage track dup brk l cell).1 +
      ((stepLineage track dup brk l cell).2.1.map (lineageWeight track h)).sum
      + 1 = lineageWeight track h l := by
  have hr : lineageWeight track h l =
      1 + ((outTargets track (l.spotids.getLastD 0)).map (wSpotH track h)).sum := by
    rw [lineageWeight_true track h l hl, wSpotH_eq track h hdec]
  cases hout : outTargets track (l.spotids.getLastD 0) with
  | nil =>
    rw [stepLineage_terminal track dup brk l cell hl hout]
    rw [hout] at hr
    show lineageWeight track h { l with track := false } +
      (([] : List Lineage).map (lineageWeight track h)).sum + 1 =
        lineageWeight track h l
    rw [hr, lineageWeight_false track h ({ l with track := false }) rfl]
    simp
  | cons t0 rest =>
    cases rest with
    | nil =>
      rw [stepLineage_extend track dup brk l cell t0 hl hout]
      rw [hout] at hr
      show lineageWeight track h { l with spotids := l.spotids ++ [t0] } +
        (([] : List Lineage).map (lineageWeight track h)).sum + 1 =
          lineageWeight track h l
      rw [hr, lineageWeight_true track h ({ l with spotids := l.spotids ++ [t0] }) hl]
      show wSpotH track h ((l.spotids ++ [t0]).getLastD 0) + 0 + 1 =
        1 + ([t0].map (wSpotH track h)).sum
      rw [List.getLastD_concat]
      simp [Nat.add_comm]
    | cons t1 rest2 =>
      rw [hout] at hr
      cases brk with
      | false =>
        rw [stepLineage_split_keep track dup l cell t0 t1 rest2 hl hout]
        show lineageWeight track h { l with spotids := l.spotids ++ [t0] } +
          ((spawnMany dup l.cell l.spotids (l.spotids.getLastD 0)
              (t1 :: rest2) cell).1.map (lineageWeight track h)).sum + 1 =
            lineageWeight track h l
        rw [hr, spawnMany_weight,
          lineageWeight_true track h ({ l with spotids := l.spotids ++ [t0] }) hl]
        show wSpotH track h ((l.spotids ++ [t0]).getLastD 0) +
          ((t1 :: rest2).map (wSpotH track h)).sum + 1 =
            1 + ((t0 :: t1 :: rest2).map (wSpotH track h)).sum
        rw [List.getLastD_concat]
        simp only [List.map_cons, List.sum_cons]
        omega
      | true =>
        rw [stepLineage_split_break track dup l cell t0 t1 rest2 hl hout]
        rw [hr]
        show lineageWeight track h { l with track := false } +
          (((spawnMany dup l.cell l.spotids (l.spotids.getLastD 0)
              (t1 :: rest2) cell).1 ++
            ([⟨l.cell,
              (spawnMany dup l.cell l.spotids (l.spotids.getLastD 0)
                (t1 :: rest2) cell).2 + 1,
              if dup then l.spotids ++ [t0] else [l.spotids.getLastD 0, t0],
              true⟩] : List Lineage)).map (lineageWeight track h)).sum + 1 =
            1 + ((t0 :: t1 :: rest2).map (wSpotH track h)).sum
        rw [lineageWeight_false track h ({ l with track := false }) rfl,
          List.map_append, List.sum_append, spawnMany_weight]
        have hwc : lineageWeight track h
            (⟨l.cell,
              (spawnMany dup l.cell l.spotids (l.spotids.getLastD 0)
                (t1 :: rest2) cell).2 + 1,
              if dup then l.spotids ++ [t0] else [l.spotids.getLastD 0, t0],
              true⟩ : Lineage) = wSpotH track h t0 := by
          rw [lineageWeight_true track h _ rfl]
          cases dup with
          | false => rfl
          | true =>
            show wSpotH track h ((l.spotids ++ [t0]).getLastD 0) = _
            rw [List.getLastD_concat]
        rw [List.map_singleton, List.sum_singleton, hwc]
        simp only [List.map_cons, List.sum_cons]
        omega

lemma set_get_self {α : Type} (ts : List α) (i : Nat) (h : i < ts.length) :
    ts.set i (ts.get ⟨i, h⟩) = ts := by
  apply List.ext_getElem
  · simp
  · intro n h1 h2
    by_cases hn : i = n
    · subst hn
      simp
    · rw [List.getElem_set_ne hn]

lemma map_sum_set {α : Type} (f : α → Nat) :
    ∀ (ts : List α) (i : Nat) (x : α) (h : i < ts.length),
    ((ts.set i x).map f).sum + f (ts.get ⟨i, h⟩) = (ts.map f).sum + f x := by
  intro ts
  induction ts with
  | nil => intro i x h; simp at h
  | cons a t ih =>
    intro i x h
    cases i with
    | zero => simp [List.set]; omega
    | succ j =>
      simp only [List.set, List.map_cons, List.sum_cons, List.get_cons_succ]
      have := ih j x (by simpa using h)
      omega

/-- One visit never increases the total potential; visiting an active
lineage strictly decreases it (by exactly one, though we only use
monotonicity plus the strict form). -/
lemma visit_measure (track : List (Int × Int)) (h : Int → Nat)
    (hdec : ∀ e ∈ track, h e.2 < h e.1) (dup brk : Bool) (ts : List Lineage)
    (i : Nat) (cell : Nat) (hi : i < ts.length) :
    (measureState track h
        (ts.set i (stepLineage track dup brk (ts.get ⟨i, hi⟩) cell).1 ++
          (stepLineage track dup brk (ts.get ⟨i, hi⟩) cell).2.1) ≤
      measureState track h ts) ∧
    ((ts.get ⟨i, hi⟩).track = true →
      measureState track h
          (ts.set i (stepLineage track dup brk (ts.get ⟨i, hi⟩) cell).1 ++
            (stepLineage track dup brk (ts.get ⟨i, hi⟩) cell).2.1) + 1 =
        measureState track h ts) := by
  set l := ts.get ⟨i, hi⟩ with hldef
  set r := stepLineage track dup brk l cell with hrdef
  have hsum : measureState track h (ts.set i r.1 ++ r.2.1) =
      ((ts.set i r.1).map (lineageWeight track h)).sum +
        (r.2.1.map (lineageWeight track h)).sum := by
    unfold measureState
    rw [List.map_append, List.sum_append]
  have hset := map_sum_set (lineageWeight track h) ts i r.1 hi
  rw [← hldef] at hset
  cases hl : l.track with
  | true =>
    have hw := step_weight track h hdec dup brk l cell hl
    rw [← hrdef] at hw
    constructor
    · rw [hsum]
      unfold measureState
      omega
    · intro _
      rw [hsum]
      unfold measureState
      omega
  | false =>
    have hstep : r = (l, [], cell) := by
      rw [hrdef]
      exact stepLineage_inactive track dup brk l cell hl
    constructor
    · rw [hsum, hstep]
      simp only [List.map_nil, List.sum_nil, Nat.add_zero]
      rw [hldef, set_get_self]
      unfold measureState
      omega
    · intro hcontra
      exact absurd hcontra (by decide)

/-- Running the rest of a pass never increases the potential, and strictly
decreases it if some not-yet-visited lineage is active. -/
lemma runPass_measure (track : List (Int × Int)) (h : Int → Nat)
    (hdec : ∀ e ∈ track, h e.2 < h e.1) (dup brk : Bool) :
    ∀ (fuel : Nat) (ts : List Lineage) (i cell : Nat) (ts2 : List Lineage)
      (cell2 : Nat),
      runPass track dup brk fuel ts i cell = some (ts2, cell2) →
      measureState track h ts2 ≤ measureState track h ts ∧
        ((∃ l ∈ ts.drop i, l.track = true) →
          measureState track h ts2 < measureState track h ts) := by
  intro fuel
  induction fuel with
  | zero => intro ts i cell ts2 cell2 hrun; exact absurd hrun (by simp [runPass])
  | succ fuel ih =>
    intro ts i cell ts2 cell2 hrun
    unfold runPass at hrun
    by_cases hi : i < ts.length
    · rw [dif_pos hi] at hrun
      have hvm := visit_measure track h hdec dup brk ts i cell hi
      have hrec := ih _ _ _ _ _ hrun
      constructor
      · exact le_trans hrec.1 hvm.1
      · intro ⟨l, hlmem, hltrack⟩
        rw [List.drop_eq_getElem_cons hi] at hlmem
        rcases List.mem_cons.mp hlmem with heq | htail
        · have : (ts.get ⟨i, hi⟩).track = true := by
            rw [show ts.get ⟨i, hi⟩ = ts[i] from rfl, ← heq]
            exact hltrack
          have := hvm.2 this
          omega
        · -- the active witness survives the visit untouched at index i
          cases hl : (ts.get ⟨i, hi⟩).track with
          | true =>
            have := hvm.2 hl
            have := hrec.1
            omega
          | false =>
            have hstep := stepLineage_inactive track dup brk
              (ts.get ⟨i, hi⟩) cell hl
            rw [hstep] at hrun
            have hrun2 : runPass track dup brk fuel
                (ts.set i (ts.get ⟨i, hi⟩) ++ []) (i + 1) cell =
                  some (ts2, cell2) := hrun
            rw [List.append_nil, set_get_self] at hrun2
            have hrec2 := ih _ _ _ _ _ hrun2
            exact hrec2.2 ⟨l, htail, hltrack⟩
    · rw [dif_neg hi] at hrun
      have : ts2 = ts := by
        injection hrun with hp
        injection hp with h1 h2
        exact h1.symm
      subst this
      refine ⟨le_refl _, ?_⟩
      intro ⟨l, hlmem, _⟩
      rw [List.drop_eq_nil_of_le (by omega)] at hlmem
      exact absurd hlmem (List.not_mem_nil l)

lemma runPass_exists (track : List (Int × Int)) (h : Int → Nat)
    (hdec : ∀ e ∈ track, h e.2 < h e.1) (dup brk : Bool) :
    ∀ (n : Nat) (ts : List Lineage) (i cell : Nat),
      measureState track h ts * (track.length + 2) + (ts.length - i) ≤ n →
      ∃ fuel ts2 cell2,
        runPass track dup brk fuel ts i cell = some (ts2, cell2) := by
  intro n
  induction n with
  | zero =>
    intro ts i cell hb
    by_cases hi : i < ts.length
    · omega
    · exact ⟨1, ts, cell, by unfold runPass; rw [dif_neg hi]⟩
  | succ n ih =>
    intro ts i cell hb
    by_cases hi : i < ts.length
    · have hvm := visit_measure track h hdec dup brk ts i cell hi
      have hnl := step_new_length track dup brk (ts.get ⟨i, hi⟩) cell
      have hlen : (ts.set i (stepLineage track dup brk (ts.get ⟨i, hi⟩) cell).1
          ++ (stepLineage track dup brk (ts.get ⟨i, hi⟩) cell).2.1).length =
            ts.length +
              (stepLineage track dup brk (ts.get ⟨i, hi⟩) cell).2.1.length := by
        rw [List.length_append, List.length_set]
      have hbound : measureState track h
          (ts.set i (stepLineage track dup brk (ts.get ⟨i, hi⟩) cell).1 ++
            (stepLineage track dup brk (ts.get ⟨i, hi⟩) cell).2.1) *
          (track.length + 2) +
          ((ts.set i (stepLineage track dup brk (ts.get ⟨i, hi⟩) cell).1 ++
            (stepLineage track dup brk (ts.get ⟨i, hi⟩) cell).2.1).length
            - (i + 1)) ≤ n := by
        cases hl : (ts.get ⟨i, hi⟩).track with
        | true =>
          have hact := hvm.2 hl
          have hmul : measureState track h
              (ts.set i (stepLineage track dup brk (ts.get ⟨i, hi⟩) cell).1 ++
                (stepLineage track dup brk (ts.get ⟨i, hi⟩) cell).2.1) *
              (track.length + 2) + (track.length + 2) =
              measureState track h ts * (track.length + 2) := by
            rw [← hact, Nat.succ_mul]
          omega
        | false =>
          have hstep := stepLineage_inactive track dup brk (ts.get ⟨i, hi⟩)
            cell hl
          rw [hstep]
          have hts : ts.set i ((ts.get ⟨i, hi⟩, ([] : List Lineage), cell)).1
              ++ ((ts.get ⟨i, hi⟩, ([] : List Lineage), cell)).2.1 = ts := by
            show ts.set i (ts.get ⟨i, hi⟩) ++ [] = ts
            rw [List.append_nil, set_get_self]
          rw [hts]
          omega
      obtain ⟨fuel2, ts2, cell2, hrun2⟩ := ih _ _
        (stepLineage track dup brk (ts.get ⟨i, hi⟩) cell).2.2 hbound
      refine ⟨fuel2 + 1, ts2, cell2, ?_⟩
      unfold runPass
      rw [dif_pos hi]
      exact hrun2
    · exact ⟨1, ts, cell, by unfold runPass; rw [dif_neg hi]⟩

lemma runPass_mono (track : List (Int × Int)) (dup brk : Bool) :
    ∀ (fuel fuel2 : Nat) (ts : List Lineage) (i cell : Nat)
      (r : List Lineage × Nat), fuel ≤ fuel2 →
      runPass track dup brk fuel ts i cell = some r →
      runPass track dup brk fuel2 ts i cell = some r := by
  intro fuel
  induction fuel with
  | zero => intro fuel2 ts i cell r _ hrun; exact absurd hrun (by simp [runPass])
  | succ fuel ih =>
    intro fuel2 ts i cell r hle hrun
    obtain ⟨g, rfl⟩ : ∃ g, fuel2 = g + 1 := ⟨fuel2 - 1, by omega⟩
    unfold runPass at hrun ⊢
    by_cases hi : i < ts.length
    · rw [dif_pos hi] at hrun ⊢
      exact ih g _ _ _ _ (by omega) hrun
    · rw [dif_neg hi] at hrun ⊢
      exact hrun

lemma runLoop_mono (track : List (Int × Int)) (dup brk : Bool) :
    ∀ (fuel fuel2 : Nat) (ts : List Lineage) (cell : Nat)
      (res : List Lineage), fuel ≤ fuel2 →
      runLoop track dup brk fuel ts cell = some res →
      runLoop track dup brk fuel2 ts cell = some res := by
  intro fuel
  induction fuel with
  | zero => intro fuel2 ts cell res _ hrun; exact absurd hrun (by simp [runLoop])
  | succ fuel ih =>
    intro fuel2 ts cell res hle hrun
    obtain ⟨g, rfl⟩ : ∃ g, fuel2 = g + 1 := ⟨fuel2 - 1, by omega⟩
    unfold runLoop at hrun ⊢
    by_cases hany : ts.any (fun l => l.track) = true
    · rw [if_pos hany] at hrun ⊢
      cases hpass : runPass track dup brk (fuel + 1) ts 0 cell with
      | none => rw [hpass] at hrun; exact absurd hrun (by simp)
      | some p =>
        rw [hpass] at hrun
        rw [runPass_mono track dup brk (fuel + 1) (g + 1) ts 0 cell p
          (by omega) hpass]
        exact ih g _ _ _ (by omega) hrun
    · rw [if_neg hany] at hrun ⊢
      exact hrun

lemma active_measure_pos (track : List (Int × Int)) (h : Int → Nat)
    (ts : List Lineage) (hany : ts.any (fun l => l.track) = true) :
    1 ≤ measureState track h ts := by
  obtain ⟨l, hlmem, hltrack⟩ := List.any_eq_true.mp hany
  have hw : lineageWeight track h l = wSpotH track h (l.spotids.getLastD 0) :=
    lineageWeight_true track h l hltrack
  have hmem : lineageWeight track h l ∈ ts.map (lineageWeight track h) :=
    List.mem_map_of_mem _ hlmem
  have := List.single_le_sum (fun x _ => Nat.zero_le x) _ hmem
  have hp := wSpotH_pos track h (l.spotids.getLastD 0)
  unfold measureState
  omega

lemma runLoop_exists (track : List (Int × Int)) (h : Int → Nat)
    (hdec : ∀ e ∈ track, h e.2 < h e.1) (dup brk : Bool) :
    ∀ (n : Nat) (ts : List Lineage) (cell : Nat),
      measureState track h ts ≤ n →
      ∃ fuel res, runLoop track dup brk fuel ts cell = some res := by
  intro n
  induction n with
  | zero =>
    intro ts cell hb
    by_cases hany : ts.any (fun l => l.track) = true
    · have := active_measure_pos track h ts hany
      omega
    · exact ⟨1, ts, by unfold runLoop; rw [if_neg hany]⟩
  | succ n ih =>
    intro ts cell hb
    by_cases hany : ts.any (fun l => l.track) = true
    · obtain ⟨fuel1, ts1, cell1, hrun1⟩ := runPass_exists track h hdec dup brk
        (measureState track h ts * (track.length + 2) + ts.length) ts 0 cell
        (by omega)
      have hm := runPass_measure track h hdec dup brk fuel1 ts 0 cell ts1
        cell1 hrun1
      have hwit : ∃ l ∈ ts.drop 0, l.track = true := by
        rw [List.drop_zero]
        exact List.any_eq_true.mp hany
      have hdecr := hm.2 hwit
      obtain ⟨fuel2, res, hrun2⟩ := ih ts1 cell1 (by omega)
      refine ⟨max fuel1 fuel2 + 1, res, ?_⟩
      unfold runLoop
      rw [if_pos hany, runPass_mono track dup brk fuel1 (max fuel1 fuel2 + 1)
        ts 0 cell (ts1, cell1) (by omega) hrun1]
      exact runLoop_mono track dup brk fuel2 (max fuel1 fuel2) ts1 cell1 res
        (by omega) hrun2
    · exact ⟨1, ts, by unfold runLoop; rw [if_neg hany]⟩

/-! ## Claim C8 -/

/-- **C8** (confirmed).  For every finite track edge list that is acyclic
(witnessed by a height function `h` strictly decreasing along every edge,
which for a finite graph is equivalent to the absence of directed cycles)
and has exactly one root in the sense of the code's own check, the advance
loop of `analysetrackid` terminates for all four policy combinations: some
finite fuel makes the embedded loop return, which is exactly the statement
that the Python `while` loop ends after finitely many iterations. -/
theorem C8_termination (track : List (Int × Int)) (h : Int → Nat)
    (hdec : ∀ e ∈ track, h e.2 < h e.1)
    (hroot : (uniqueSources track).length = 1) (dup brk : Bool) :
    ∃ fuel res, analysetrackid track dup brk fuel = some res := by
  obtain ⟨fuel, res, hrun⟩ := runLoop_exists track h hdec dup brk
    (measureState track h
      [⟨0, 1, ((track.filter
        (fun e => e.1 == (uniqueSources track).headD 0)).map
          (fun e => [e.1, e.2])).flatten, true⟩])
    [⟨0, 1, ((track.filter
      (fun e => e.1 == (uniqueSources track).headD 0)).map
        (fun e => [e.1, e.2])).flatten, true⟩] 1 (le_refl _)
  refine ⟨fuel, res, ?_⟩
  show (if (uniqueSources track).length = 1 then
      runLoop track dup brk fuel
        [⟨0, 1, ((track.filter
          (fun e => e.1 == (uniqueSources track).headD 0)).map
            (fun e => [e.1, e.2])).flatten, true⟩] 1
    else some []) = some res
  rw [if_pos hroot]
  exact hrun

/-- Witness for C8: a concrete acyclic one-root track. -/
theorem C8_witness :
    ∃ fuel res, analysetrackid [(1, 2), (2, 3)] false false fuel = some res :=
  C8_termination [(1, 2), (2, 3)] (fun v => (4 - v).toNat) (by decide)
    (by decide) false false

/-! ## Edge-coverage machinery for C4 -/

lemma filter_eq_map_outTargets (track : List (Int × Int)) (v : Int) :
    track.filter (fun e => e.1 == v) =
      (outTargets track v).map (fun t => (v, t)) := by
  unfold outTargets
  rw [List.map_map]
  conv_lhs => rw [← List.map_id (track.filter (fun e => e.1 == v))]
  apply List.map_congr_left
  intro e he
  obtain ⟨he2, hbeq⟩ := List.mem_filter.mp he
  have h1 : e.1 = v := by simpa using hbeq
  show e = (v, e.2)
  rw [← h1, Prod.mk.eta]

lemma sSpot_stable (track : List (Int × Int)) (h : Int → Nat)
    (hdec : ∀ e ∈ track, h e.2 < h e.1) :
    ∀ n v f g, h v ≤ n → h v < f → h v < g →
      sSpot track f v = sSpot track g v := by
  intro n
  induction n with
  | zero =>
    intro v f g hv hf hg
    obtain ⟨f2, rfl⟩ : ∃ f2, f = f2 + 1 := ⟨f - 1, by omega⟩
    obtain ⟨g2, rfl⟩ : ∃ g2, g = g2 + 1 := ⟨g - 1, by omega⟩
    unfold sSpot
    apply congrArg
    apply List.map_congr_left
    intro e he
    obtain ⟨he2, hbeq⟩ := List.mem_filter.mp he
    have h1 : e.1 = v := by simpa using hbeq
    have hlt : h e.2 < h v := h1 ▸ hdec e he2
    omega
  | succ n ih =>
    intro v f g hv hf hg
    obtain ⟨f2, rfl⟩ : ∃ f2, f = f2 + 1 := ⟨f - 1, by omega⟩
    obtain ⟨g2, rfl⟩ : ∃ g2, g = g2 + 1 := ⟨g - 1, by omega⟩
    unfold sSpot
    apply congrArg
    apply List.map_congr_left
    intro e he
    obtain ⟨he2, hbeq⟩ := List.mem_filter.mp he
    have h1 : e.1 = v := by simpa using hbeq
    have hlt : h e.2 < h v := h1 ▸ hdec e he2
    rw [ih e.2 f2 g2 (by omega) (by omega) (by omega)]

lemma sSpotH_eq (track : List (Int × Int)) (h : Int → Nat)
    (hdec : ∀ e ∈ track, h e.2 < h e.1) (v : Int) :
    sSpotH track h v =
      ((outTargets track v).map
        (fun t => (v, t) ::ₘ sSpotH track h t)).sum := by
  have hunf : sSpot track (h v + 1) v =
      ((track.filter (fun e => e.1 == v)).map
        (fun e => e ::ₘ sSpot track (h v) e.2)).sum := rfl
  unfold sSpotH
  rw [hunf, filter_eq_map_outTargets, List.map_map]
  apply congrArg
  apply List.map_congr_left
  intro t ht
  show (v, t) ::ₘ sSpot track (h v) t = (v, t) ::ₘ sSpot track (h t + 1) t
  have hlt : h t < h v := hdec (v, t) (mem_outTargets_edge track v t ht)
  rw [sSpot_stable track h hdec (h t) t (h v) (h t + 1) (le_refl _) hlt (by omega)]

lemma zip_tail_concat : ∀ (xs : List Int) (t : Int), xs ≠ [] →
    (xs ++ [t]).zip (xs ++ [t]).tail =
      xs.zip xs.tail ++ [(xs.getLastD 0, t)] := by
  intro xs
  induction xs with
  | nil => intro t hne; exact absurd rfl hne
  | cons a l ih =>
    intro t _
    cases l with
    | nil => rfl
    | cons b l2 =>
      have := ih t (by simp)
      show (a, b) :: ((b :: l2 ++ [t]).zip ((b :: l2 ++ [t]).tail)) =
        (a, b) :: ((b :: l2).zip (b :: l2).tail ++ [((b :: l2).getLastD 0, t)])
      rw [this]

lemma lineagePairs_concat (xs : List Int) (t : Int) (hne : xs ≠ []) :
    lineagePairs (xs ++ [t]) =
      lineagePairs xs + {(xs.getLastD 0, t)} := by
  unfold lineagePairs
  rw [zip_tail_concat xs t hne]
  rw [← Multiset.coe_add]
  rfl

lemma lineagePairs_pair (a b : Int) :
    lineagePairs [a, b] = {(a, b)} := rfl

/-- Analogue of `map_sum_set` for any commutative monoid of values. -/
lemma map_msum_set {α β : Type} [AddCommMonoid β] (f : α → β) :
    ∀ (ts : List α) (i : Nat) (x : α) (h : i < ts.length),
    ((ts.set i x).map f).sum + f (ts.get ⟨i, h⟩) = (ts.map f).sum + f x := by
  intro ts
  induction ts with
  | nil => intro i x h; simp at h
  | cons a t ih =>
    intro i x h
    cases i with
    | zero =>
      simp only [List.set, List.map_cons, List.sum_cons, List.get]
      abel
    | succ j =>
      simp only [List.set, List.map_cons, List.sum_cons, List.get_cons_succ]
      rw [add_assoc, ih j x (by simpa using h), ← add_assoc]

lemma spawnMany_nonempty (dup : Bool) (parent : Nat) (hist : List Int)
    (lastid : Int) : ∀ (ts : List Int) (cell : Nat) (l2 : Lineage),
    l2 ∈ (spawnMany dup parent hist lastid ts cell).1 → l2.spotids ≠ [] := by
  intro ts
  induction ts with
  | nil => intro cell l2 hmem; exact absurd hmem (List.not_mem_nil l2)
  | cons t ts ih =>
    intro cell l2 hmem
    unfold spawnMany at hmem
    rcases List.mem_cons.mp hmem with heq | htail
    · subst heq
      show (if dup then hist ++ [t] else [lastid, t]) ≠ []
      cases dup with
      | false => simp
      | true => simp
    · exact ih (cell + 1) l2 htail

lemma step_nonempty (track : List (Int × Int)) (dup brk : Bool) (l : Lineage)
    (cell : Nat) (hne : l.spotids ≠ []) :
    (stepLineage track dup brk l cell).1.spotids ≠ [] ∧
      ∀ l2 ∈ (stepLineage track dup brk l cell).2.1, l2.spotids ≠ [] := by
  cases hl : l.track with
  | false =>
    rw [stepLineage_inactive track dup brk l cell hl]
    exact ⟨hne, fun l2 hmem => absurd hmem (List.not_mem_nil l2)⟩
  | true =>
    cases hout : outTargets track (l.spotids.getLastD 0) with
    | nil =>
      rw [stepLineage_terminal track dup brk l cell hl hout]
      exact ⟨hne, fun l2 hmem => absurd hmem (List.not_mem_nil l2)⟩
    | cons t0 rest =>
      cases rest with
      | nil =>
        rw [stepLineage_extend track dup brk l cell t0 hl hout]
        exact ⟨by simp, fun l2 hmem => absurd hmem (List.not_mem_nil l2)⟩
      | cons t1 rest2 =>
        cases brk with
        | false =>
          rw [stepLineage_split_keep track dup l cell t0 t1 rest2 hl hout]
          refine ⟨by simp, ?_⟩
          intro l2 hmem
          exact spawnMany_nonempty dup l.cell l.spotids
            (l.spotids.getLastD 0) (t1 :: rest2) cell l2 hmem
        | true =>
          rw [stepLineage_split_break track dup l cell t0 t1 rest2 hl hout]
          refine ⟨hne, ?_⟩
          intro l2 hmem
          rcases List.mem_append.mp hmem with hsp | hch
          · exact spawnMany_nonempty dup l.cell l.spotids
              (l.spotids.getLastD 0) (t1 :: rest2) cell l2 hsp
          · rw [List.mem_singleton] at hch
            subst hch
            show (if dup then l.spotids ++ [t0]
              else [l.spotids.getLastD 0, t0]) ≠ []
            cases dup with
            | false => simp
            | true => simp

lemma lineageCover_true (track : List (Int × Int)) (h : Int → Nat)
    (l : Lineage) (hl : l.track = true) :
    lineageCover track h l =
      lineagePairs l.spotids + sSpotH track h (l.spotids.getLastD 0) := by
  unfold lineageCover
  rw [hl]
  simp

lemma lineageCover_false (track : List (Int × Int)) (h : Int → Nat)
    (l : Lineage) (hl : l.track = false) :
    lineageCover track h l = lineagePairs l.spotids := by
  unfold lineageCover
  rw [hl]
  simp

lemma bare_cover (track : List (Int × Int)) (h : Int → Nat) (p c : Nat)
    (a b : Int) :
    lineageCover track h (⟨p, c, [a, b], true⟩ : Lineage) =
      (a, b) ::ₘ sSpotH track h b := by
  rw [lineageCover_true track h _ rfl]
  show lineagePairs [a, b] + sSpotH track h b = _
  rw [lineagePairs_pair, Multiset.singleton_add]

lemma spawnMany_cover (track : List (Int × Int)) (h : Int → Nat)
    (parent : Nat) (hist : List Int) (lastid : Int) :
    ∀ (ts : List Int) (cell : Nat),
    ((spawnMany false parent hist lastid ts cell).1.map
      (lineageCover track h)).sum =
      (ts.map (fun t => (lastid, t) ::ₘ sSpotH track h t)).sum := by
  intro ts
  induction ts with
  | nil => intro cell; rfl
  | cons t ts ih =>
    intro cell
    show lineageCover track h (⟨parent, cell + 1, [lastid, t], true⟩ : Lineage) +
      ((spawnMany false parent hist lastid ts (cell + 1)).1.map
        (lineageCover track h)).sum =
      ((lastid, t) ::ₘ sSpotH track h t) +
        (ts.map (fun t2 => (lastid, t2) ::ₘ sSpotH track h t2)).sum
    rw [ih (cell + 1), bare_cover]

lemma step_cover (track : List (Int × Int)) (h : Int → Nat)
    (hdec : ∀ e ∈ track, h e.2 < h e.1) (brk : Bool) (l : Lineage)
    (cell : Nat) (hl : l.track = true) (hne : l.spotids ≠ []) :
    lineageCover track h (stepLineage track false brk l cell).1 +
      ((stepLineage track false brk l cell).2.1.map (lineageCover track h)).sum
      = lineageCover track h l := by
  have hr : lineageCover track h l = lineagePairs l.spotids +
      ((outTargets track (l.spotids.getLastD 0)).map
        (fun t => (l.spotids.getLastD 0, t) ::ₘ sSpotH track h t)).sum := by
    rw [lineageCover_true track h l hl, sSpotH_eq track h hdec]
  cases hout : outTargets track (l.spotids.getLastD 0) with
  | nil =>
    rw [stepLineage_terminal track false brk l cell hl hout]
    rw [hout] at hr
    show lineageCover track h { l with track := false } +
      (([] : List Lineage).map (lineageCover track h)).sum =
        lineageCover track h l
    rw [hr, lineageCover_false track h ({ l with track := false }) rfl]
    simp
  | cons t0 rest =>
    cases rest with
    | nil =>
      rw [stepLineage_extend track false brk l cell t0 hl hout]
      rw [hout] at hr
      show lineageCover track h { l with spotids := l.spotids ++ [t0] } +
        (([] : List Lineage).map (lineageCover track h)).sum =
          lineageCover track h l
      rw [hr, lineageCover_true track h
        ({ l with spotids := l.spotids ++ [t0] }) hl]
      show lineagePairs (l.spotids ++ [t0]) +
        sSpotH track h ((l.spotids ++ [t0]).getLastD 0) + 0 =
          lineagePairs l.spotids +
            ([t0].map (fun t => (l.spotids.getLastD 0, t) ::ₘ
              sSpotH track h t)).sum
      rw [List.getLastD_concat, lineagePairs_concat l.spotids t0 hne]
      simp only [List.map_cons, List.map_nil, List.sum_cons, List.sum_nil]
      rw [← Multiset.singleton_add]
      abel
    | cons t1 rest2 =>
      rw [hout] at hr
      cases brk with
      | false =>
        rw [stepLineage_split_keep track false l cell t0 t1 rest2 hl hout]
        show lineageCover track h { l with spotids := l.spotids ++ [t0] } +
          ((spawnMany false l.cell l.spotids (l.spotids.getLastD 0)
              (t1 :: rest2) cell).1.map (lineageCover track h)).sum =
            lineageCover track h l
        rw [hr, spawnMany_cover, lineageCover_true track h
          ({ l with spotids := l.spotids ++ [t0] }) hl]
        show lineagePairs (l.spotids ++ [t0]) +
          sSpotH track h ((l.spotids ++ [t0]).getLastD 0) +
          ((t1 :: rest2).map (fun t => (l.spotids.getLastD 0, t) ::ₘ
            sSpotH track h t)).sum =
            lineagePairs l.spotids +
              ((t0 :: t1 :: rest2).map (fun t => (l.spotids.getLastD 0, t) ::ₘ
                sSpotH track h t)).sum
        rw [List.getLastD_concat, lineagePairs_concat l.spotids t0 hne]
        simp only [List.map_cons, List.sum_cons, ← Multiset.singleton_add]
        abel
      | true =>
        rw [stepLineage_split_break track false l cell t0 t1 rest2 hl hout]
        rw [hr]
        show lineageCover track h { l with track := false } +
          (((spawnMany false l.cell l.spotids (l.spotids.getLastD 0)
              (t1 :: rest2) cell).1 ++
            ([⟨l.cell,
              (spawnMany false l.cell l.spotids (l.spotids.getLastD 0)
                (t1 :: rest2) cell).2 + 1,
              if false then l.spotids ++ [t0] else [l.spotids.getLastD 0, t0],
              true⟩] : List Lineage)).map (lineageCover track h)).sum =
            lineagePairs l.spotids +
              ((t0 :: t1 :: rest2).map (fun t => (l.spotids.getLastD 0, t) ::ₘ
                sSpotH track h t)).sum
        rw [lineageCover_false track h ({ l with track := false }) rfl,
          List.map_append, List.sum_append, spawnMany_cover,
          List.map_singleton, List.sum_singleton]
        have hwc : lineageCover track h
            (⟨l.cell,
              (spawnMany false l.cell l.spotids (l.spotids.getLastD 0)
                (t1 :: rest2) cell).2 + 1,
              if false then l.spotids ++ [t0] else [l.spotids.getLastD 0, t0],
              true⟩ : Lineage) =
            (l.spotids.getLastD 0, t0) ::ₘ sSpotH track h t0 := by
          rw [lineageCover_true track h _ rfl]
          show lineagePairs [l.spotids.getLastD 0, t0] + sSpotH track h t0 = _
          rw [lineagePairs_pair, Multiset.singleton_add]
        rw [hwc]
        simp only [List.map_cons, List.sum_cons, ← Multiset.singleton_add]
        abel

/-- One visit with `duplicate_split = false` preserves the total edge
coverage and keeps every spot-id sequence nonempty. -/
lemma visit_cover (track : List (Int × Int)) (h : Int → Nat)
    (hdec : ∀ e ∈ track, h e.2 < h e.1) (brk : Bool) (ts : List Lineage)
    (i : Nat) (cell : Nat) (hi : i < ts.length)
    (hne : ∀ l ∈ ts, l.spotids ≠ []) :
    coverState track h
        (ts.set i (stepLineage track false brk (ts.get ⟨i, hi⟩) cell).1 ++
          (stepLineage track false brk (ts.get ⟨i, hi⟩) cell).2.1) =
      coverState track h ts ∧
    (∀ l ∈ ts.set i (stepLineage track false brk (ts.get ⟨i, hi⟩) cell).1 ++
      (stepLineage track false brk (ts.get ⟨i, hi⟩) cell).2.1,
        l.spotids ≠ []) := by
  have hne_i : (ts.get ⟨i, hi⟩).spotids ≠ [] :=
    hne _ (List.get_mem ts i hi)
  have hnl := step_nonempty track false brk (ts.get ⟨i, hi⟩) cell hne_i
  constructor
  · have hsum : coverState track h
        (ts.set i (stepLineage track false brk (ts.get ⟨i, hi⟩) cell).1 ++
          (stepLineage track false brk (ts.get ⟨i, hi⟩) cell).2.1) =
        ((ts.set i (stepLineage track false brk (ts.get ⟨i, hi⟩) cell).1).map
          (lineageCover track h)).sum +
          ((stepLineage track false brk (ts.get ⟨i, hi⟩) cell).2.1.map
            (lineageCover track h)).sum := by
      unfold coverState
      rw [List.map_append, List.sum_append]
    have hset := map_msum_set (lineageCover track h) ts i
      (stepLineage track false brk (ts.get ⟨i, hi⟩) cell).1 hi
    cases hl : (ts.get ⟨i, hi⟩).track with
    | true =>
      have hw := step_cover track h hdec brk (ts.get ⟨i, hi⟩) cell hl hne_i
      unfold coverState
      rw [List.map_append, List.sum_append]
      have : ((ts.set i (stepLineage track false brk
          (ts.get ⟨i, hi⟩) cell).1).map (lineageCover track h)).sum +
          ((stepLineage track false brk (ts.get ⟨i, hi⟩) cell).2.1.map
            (lineageCover track h)).sum +
          lineageCover track h (ts.get ⟨i, hi⟩) =
          (ts.map (lineageCover track h)).sum +
          lineageCover track h (ts.get ⟨i, hi⟩) := by
        calc ((ts.set i (stepLineage track false brk
              (ts.get ⟨i, hi⟩) cell).1).map (lineageCover track h)).sum +
              ((stepLineage track false brk (ts.get ⟨i, hi⟩) cell).2.1.map
                (lineageCover track h)).sum +
              lineageCover track h (ts.get ⟨i, hi⟩)
            = ((ts.set i (stepLineage track false brk
                (ts.get ⟨i, hi⟩) cell).1).map (lineageCover track h)).sum +
              lineageCover track h (ts.get ⟨i, hi⟩) +
              ((stepLineage track false brk (ts.get ⟨i, hi⟩) cell).2.1.map
                (lineageCover track h)).sum := by abel
          _ = (ts.map (lineageCover track h)).sum +
              lineageCover track h (stepLineage track false brk
                (ts.get ⟨i, hi⟩) cell).1 +
              ((stepLineage track false brk (ts.get ⟨i, hi⟩) cell).2.1.map
                (lineageCover track h)).sum := by rw [hset]
          _ = (ts.map (lineageCover track h)).sum +
              (lineageCover track h (stepLineage track false brk
                (ts.get ⟨i, hi⟩) cell).1 +
              ((stepLineage track false brk (ts.get ⟨i, hi⟩) cell).2.1.map
                (lineageCover track h)).sum) := by abel
          _ = (ts.map (lineageCover track h)).sum +
              lineageCover track h (ts.get ⟨i, hi⟩) := by rw [hw]
      exact add_right_cancel this
    | false =>
      have hstep := stepLineage_inactive track false brk (ts.get ⟨i, hi⟩)
        cell hl
      rw [hstep]
      have hts : ts.set i ((ts.get ⟨i, hi⟩, ([] : List Lineage), cell)).1
          ++ ((ts.get ⟨i, hi⟩, ([] : List Lineage), cell)).2.1 = ts := by
        show ts.set i (ts.get ⟨i, hi⟩) ++ [] = ts
        rw [List.append_nil, set_get_self]
      rw [hts]
  · intro l hmem
    rcases List.mem_append.mp hmem with hset | hnew
    · rcases List.mem_or_eq_of_mem_set hset with hold | heq
      · exact hne l hold
      · subst heq
        exact hnl.1
    · exact hnl.2 l hnew

lemma runPass_cover (track : List (Int × Int)) (h : Int → Nat)
    (hdec : ∀ e ∈ track, h e.2 < h e.1) (brk : Bool) :
    ∀ (fuel : Nat) (ts : List Lineage) (i cell : Nat) (ts2 : List Lineage)
      (cell2 : Nat),
      runPass track false brk fuel ts i cell = some (ts2, cell2) →
      (∀ l ∈ ts, l.spotids ≠ []) →
      coverState track h ts2 = coverState track h ts ∧
        ∀ l ∈ ts2, l.spotids ≠ [] := by
  intro fuel
  induction fuel with
  | zero => intro ts i cell ts2 cell2 hrun; exact absurd hrun (by simp [runPass])
  | succ fuel ih =>
    intro ts i cell ts2 cell2 hrun hne
    unfold runPass at hrun
    by_cases hi : i < ts.length
    · rw [dif_pos hi] at hrun
      have hvc := visit_cover track h hdec brk ts i cell hi hne
      have hrec := ih _ _ _ _ _ hrun hvc.2
      exact ⟨hrec.1.trans hvc.1, hrec.2⟩
    · rw [dif_neg hi] at hrun
      have hts : ts2 = ts := by
        injection hrun with hp
        injection hp with h1 h2
        exact h1.symm
      subst hts
      exact ⟨rfl, hne⟩

lemma runLoop_cover (track : List (Int × Int)) (h : Int → Nat)
    (hdec : ∀ e ∈ track, h e.2 < h e.1) (brk : Bool) :
    ∀ (fuel : Nat) (ts : List Lineage) (cell : Nat) (res : List Lineage),
      runLoop track false brk fuel ts cell = some res →
      (∀ l ∈ ts, l.spotids ≠ []) →
      coverState track h res = coverState track h ts := by
  intro fuel
  induction fuel with
  | zero => intro ts cell res hrun; exact absurd hrun (by simp [runLoop])
  | succ fuel ih =>
    intro ts cell res hrun hne
    unfold runLoop at hrun
    by_cases hany : ts.any (fun l => l.track) = true
    · rw [if_pos hany] at hrun
      cases hpass : runPass track false brk (fuel + 1) ts 0 cell with
      | none => rw [hpass] at hrun; exact absurd hrun (by simp)
      | some p =>
        rw [hpass] at hrun
        have hpc := runPass_cover track h hdec brk (fuel + 1) ts 0 cell
          p.1 p.2 (by rw [hpass]) hne
        have := ih p.1 p.2 res hrun hpc.2
        rw [this, hpc.1]
    · rw [if_neg hany] at hrun
      injection hrun with hres
      rw [← hres]

lemma runLoop_result_inactive (track : List (Int × Int)) (dup brk : Bool) :
    ∀ (fuel : Nat) (ts : List Lineage) (cell : Nat) (res : List Lineage),
      runLoop track dup brk fuel ts cell = some res →
      res.any (fun l => l.track) = false := by
  intro fuel
  induction fuel with
  | zero => intro ts cell res hrun; exact absurd hrun (by simp [runLoop])
  | succ fuel ih =>
    intro ts cell res hrun
    unfold runLoop at hrun
    by_cases hany : ts.any (fun l => l.track) = true
    · rw [if_pos hany] at hrun
      cases hpass : runPass track dup brk (fuel + 1) ts 0 cell with
      | none => rw [hpass] at hrun; exact absurd hrun (by simp)
      | some p =>
        rw [hpass] at hrun
        exact ih p.1 p.2 res hrun
    · rw [if_neg hany] at hrun
      injection hrun with hres
      rw [← hres]
      exact Bool.not_eq_true _ ▸ (by simpa using hany)

lemma coverState_inactive (track : List (Int × Int)) (h : Int → Nat)
    (res : List Lineage) (hin : res.any (fun l => l.track) = false) :
    coverState track h res = resultEdges res := by
  unfold coverState resultEdges
  apply congrArg
  apply List.map_congr_left
  intro l hmem
  have hl : l.track = false := by
    have := List.any_eq_false.mp hin l hmem
    simpa using this
  exact lineageCover_false track h l hl

/-! ## Counting lemmas: the subtree multiset of the root covers a no-merge
acyclic one-root track exactly once -/

lemma count_list_msum {α β : Type} [DecidableEq β] (f : α → Multiset β)
    (e : β) : ∀ (l : List α),
    ((l.map f).sum).count e = (l.map (fun x => (f x).count e)).sum := by
  intro l
  induction l with
  | nil => rfl
  | cons a t ih =>
    simp only [List.map_cons, List.sum_cons, Multiset.count_add, ih]

lemma sum_indicator_zero {α : Type} (l : List α) (f : α → Nat)
    (h : ∀ x ∈ l, f x = 0) : (l.map f).sum = 0 := by
  apply List.sum_eq_zero
  intro x hx
  obtain ⟨a, ha, rfl⟩ := List.mem_map.mp hx
  exact h a ha

lemma sum_eq_one_of_unique {α : Type} [DecidableEq α] :
    ∀ (l : List α) (f : α → Nat) (c : α), l.Nodup → c ∈ l → f c = 1 →
    (∀ x ∈ l, x ≠ c → f x = 0) → (l.map f).sum = 1 := by
  intro l
  induction l with
  | nil => intro f c _ hc; exact absurd hc (List.not_mem_nil c)
  | cons a t ih =>
    intro f c hnd hc hfc hother
    simp only [List.map_cons, List.sum_cons]
    rcases List.mem_cons.mp hc with heq | htail
    · have hz : (t.map f).sum = 0 := by
        apply sum_indicator_zero
        intro x hx
        apply hother x (List.mem_cons_of_mem a hx)
        intro hxc
        rw [hxc, heq] at hx
        exact (List.nodup_cons.mp hnd).1 hx
      rw [← heq, hfc, hz]
    · have ha0 : f a = 0 := by
        apply hother a (List.mem_cons_self a t)
        intro hac
        rw [← hac] at htail
        exact (List.nodup_cons.mp hnd).1 htail
      rw [ha0, ih f c (List.nodup_cons.mp hnd).2 htail hfc
        (fun x hx hxc => hother x (List.mem_cons_of_mem a hx) hxc)]

lemma sum_indicator_count (b : Int) : ∀ (l : List Int),
    (l.map (fun t => if b = t then 1 else 0)).sum =
      (↑l : Multiset Int).count b := by
  intro l
  induction l with
  | nil => rfl
  | cons a t ih =>
    show (if b = a then 1 else 0) +
      (t.map (fun t => if b = t then 1 else 0)).sum =
        (a ::ₘ (↑t : Multiset Int)).count b
    rw [Multiset.count_cons, ih]
    omega

lemma count_outTargets (track : List (Int × Int)) :
    ∀ (v b : Int),
    (↑(outTargets track v) : Multiset Int).count b =
      (↑track : Multiset (Int × Int)).count (v, b) := by
  induction track with
  | nil => intro v b; rfl
  | cons e rest ih =>
    intro v b
    by_cases he : e.1 = v
    · have hout : outTargets (e :: rest) v = e.2 :: outTargets rest v := by
        unfold outTargets
        rw [List.filter_cons_of_pos (by simpa using he), List.map_cons]
      rw [hout]
      show (e.2 ::ₘ (↑(outTargets rest v) : Multiset Int)).count b =
        (e ::ₘ (↑rest : Multiset (Int × Int))).count (v, b)
      rw [Multiset.count_cons, Multiset.count_cons, ih v b]
      have : (b = e.2) ↔ ((v, b) = e) := by
        constructor
        · intro hb
          rw [← he, hb, Prod.mk.eta]
        · intro hvb
          rw [← hvb]
      by_cases hb : b = e.2
      · rw [if_pos hb, if_pos (this.mp hb)]
      · rw [if_neg hb, if_neg (fun hc => hb (this.mpr hc))]
    · have hout : outTargets (e :: rest) v = outTargets rest v := by
        unfold outTargets
        rw [List.filter_cons_of_neg (by simpa using he)]
      rw [hout]
      show (↑(outTargets rest v) : Multiset Int).count b =
        (e ::ₘ (↑rest : Multiset (Int × Int))).count (v, b)
      rw [Multiset.count_cons, ih v b]
      rw [if_neg (fun hc => he (by rw [← hc])), Nat.add_zero]

lemma outTargets_nodup (track : List (Int × Int))
    (hnd : (track.map Prod.snd).Nodup) (v : Int) :
    (outTargets track v).Nodup := by
  unfold outTargets
  exact hnd.sublist ((List.filter_sublist track).map Prod.snd)

lemma target_unique (track : List (Int × Int))
    (hnd : (track.map Prod.snd).Nodup) (b c d : Int)
    (h1 : (b, c) ∈ track) (h2 : (d, c) ∈ track) : b = d := by
  have := List.inj_on_of_nodup_map hnd h1 h2 rfl
  injection this with hb hc

lemma sum_map_add {α : Type} (f g : α → Nat) : ∀ (l : List α),
    (l.map (fun x => f x + g x)).sum = (l.map f).sum + (l.map g).sum := by
  intro l
  induction l with
  | nil => rfl
  | cons a t ih =>
    simp only [List.map_cons, List.sum_cons, ih]
    omega

lemma edge_mem_outTargets (track : List (Int × Int)) (v c : Int)
    (he : (v, c) ∈ track) : c ∈ outTargets track v := by
  unfold outTargets
  exact List.mem_map.mpr ⟨(v, c), List.mem_filter.mpr ⟨he, by simp⟩, rfl⟩

lemma reach_h (track : List (Int × Int)) (h : Int → Nat)
    (hdec : ∀ e ∈ track, h e.2 < h e.1) (x y : Int)
    (hr : Relation.ReflTransGen (fun a b => (a, b) ∈ track) x y) :
    h y ≤ h x := by
  induction hr with
  | refl => exact le_refl _
  | tail hab hbc ih => exact le_trans (le_of_lt (hdec (_, _) hbc)) ih

lemma reach_or (track : List (Int × Int))
    (hnd : (track.map Prod.snd).Nodup) (t1 a : Int)
    (hr1 : Relation.ReflTransGen (fun x y => (x, y) ∈ track) t1 a) :
    ∀ t2, Relation.ReflTransGen (fun x y => (x, y) ∈ track) t2 a →
      Relation.ReflTransGen (fun x y => (x, y) ∈ track) t1 t2 ∨
      Relation.ReflTransGen (fun x y => (x, y) ∈ track) t2 t1 := by
  induction hr1 with
  | refl => intro t2 h2; exact Or.inr h2
  | tail hab hbc ih =>
    intro t2 h2
    rcases Relation.ReflTransGen.cases_tail h2 with heq | ⟨d, hd, hdc⟩
    · rw [← heq]
      exact Or.inl (hab.tail hbc)
    · have hbd := target_unique track hnd d _ _ hdc hbc
      rw [hbd] at hd
      exact ih t2 hd

lemma children_unique (track : List (Int × Int))
    (hnd : (track.map Prod.snd).Nodup) (h : Int → Nat)
    (hdec : ∀ e ∈ track, h e.2 < h e.1) (v t1 t2 a : Int)
    (h1 : t1 ∈ outTargets track v) (h2 : t2 ∈ outTargets track v)
    (hr1 : Relation.ReflTransGen (fun x y => (x, y) ∈ track) t1 a)
    (hr2 : Relation.ReflTransGen (fun x y => (x, y) ∈ track) t2 a) :
    t1 = t2 := by
  have key : ∀ x y : Int, x ∈ outTargets track v → y ∈ outTargets track v →
      Relation.ReflTransGen (fun p q => (p, q) ∈ track) x y → x ≠ y → False := by
    intro x y hx hy hxy hne
    rcases Relation.ReflTransGen.cases_tail hxy with heq | ⟨d, hd, hdy⟩
    · exact hne heq.symm
    · have hdv := target_unique track hnd d _ _ hdy
        (mem_outTargets_edge track v y hy)
      rw [hdv] at hd
      have hle := reach_h track h hdec x v hd
      have hlt : h x < h v := hdec (v, x) (mem_outTargets_edge track v x hx)
      omega
  by_cases hne : t1 = t2
  · exact hne
  · rcases reach_or track hnd t1 a hr1 t2 hr2 with h12 | h21
    · exact absurd (key t1 t2 h1 h2 h12 hne) not_false
    · exact absurd (key t2 t1 h2 h1 h21 (fun hc => hne hc.symm)) not_false

/-- Counting an edge in the subtree multiset of `v`: each track edge occurs
once when its source is reachable from `v`, and nothing else occurs (for a
no-merge acyclic track). -/
lemma count_sSpotH (track : List (Int × Int))
    (hnd : (track.map Prod.snd).Nodup) (h : Int → Nat)
    (hdec : ∀ e ∈ track, h e.2 < h e.1) :
    ∀ (n : Nat), ∀ (v : Int), h v ≤ n → ∀ (e : Int × Int),
      ((e ∈ track ∧ Relation.ReflTransGen (fun x y => (x, y) ∈ track) v e.1) →
        (sSpotH track h v).count e = 1) ∧
      (¬ (e ∈ track ∧ Relation.ReflTransGen (fun x y => (x, y) ∈ track) v e.1) →
        (sSpotH track h v).count e = 0) := by
  intro n
  induction n using Nat.strong_induction_on with
  | _ n ih =>
    intro v hv e
    have hrw : (sSpotH track h v).count e =
        ((outTargets track v).map
          (fun t => ((sSpotH track h t).count e +
            if e = (v, t) then 1 else 0))).sum := by
      rw [sSpotH_eq track h hdec v, count_list_msum]
      apply congrArg
      apply List.map_congr_left
      intro t _
      rw [Multiset.count_cons]
    rw [hrw, sum_map_add]
    have hchild : ∀ t ∈ outTargets track v, h t < h v := by
      intro t ht
      exact hdec (v, t) (mem_outTargets_edge track v t ht)
    have hIH : ∀ t ∈ outTargets track v, ∀ e2 : Int × Int,
        ((e2 ∈ track ∧
          Relation.ReflTransGen (fun x y => (x, y) ∈ track) t e2.1) →
          (sSpotH track h t).count e2 = 1) ∧
        (¬ (e2 ∈ track ∧
          Relation.ReflTransGen (fun x y => (x, y) ∈ track) t e2.1) →
          (sSpotH track h t).count e2 = 0) := by
      intro t ht e2
      exact ih (h t) (by have := hchild t ht; omega) t (le_refl _) e2
    obtain ⟨a, b⟩ := e
    by_cases ha : a = v
    · subst ha
      have hind : ((outTargets track a).map
          (fun t => if ((a, b) : Int × Int) = (a, t) then 1 else 0)).sum =
          (↑track : Multiset (Int × Int)).count (a, b) := by
        have hcongr : ((outTargets track a).map
            (fun t => if ((a, b) : Int × Int) = (a, t) then 1 else 0)) =
            ((outTargets track a).map (fun t => if b = t then 1 else 0)) := by
          apply List.map_congr_left
          intro t _
          by_cases hb : b = t
          · rw [if_pos hb, if_pos (by rw [hb])]
          · rw [if_neg hb, if_neg (fun hc => hb (by injection hc))]
        rw [hcongr, sum_indicator_count, count_outTargets]
      have hz : ((outTargets track a).map
          (fun t => (sSpotH track h t).count (a, b))).sum = 0 := by
        apply sum_indicator_zero
        intro t ht
        apply (hIH t ht (a, b)).2
        intro ⟨_, hreach⟩
        have hle := reach_h track h hdec t a hreach
        have hlt := hchild t ht
        omega
      rw [hz, hind]
      constructor
      · intro ⟨hmem, _⟩
        rw [Nat.zero_add]
        exact Multiset.count_eq_one_of_mem
          (Multiset.coe_nodup.mpr (hnd.of_map Prod.snd)) (Multiset.mem_coe.mpr hmem)
      · intro hneg
        have hmem : ((a, b) : Int × Int) ∉ track := by
          intro hc
          exact hneg ⟨hc, Relation.ReflTransGen.refl⟩
        rw [Nat.zero_add]
        exact Multiset.count_eq_zero_of_not_mem
          (fun hc => hmem (Multiset.mem_coe.mp hc))
    · have hind : ((outTargets track v).map
          (fun t => if ((a, b) : Int × Int) = (v, t) then 1 else 0)).sum = 0 := by
        apply sum_indicator_zero
        intro t _
        rw [if_neg (fun hc => ha (by injection hc))]
      rw [hind, Nat.add_zero]
      by_cases hmem : ((a, b) : Int × Int) ∈ track
      · by_cases hre : Relation.ReflTransGen (fun x y => (x, y) ∈ track) v a
        · have hval : ((outTargets track v).map
              (fun t => (sSpotH track h t).count (a, b))).sum = 1 := by
            rcases Relation.ReflTransGen.cases_head hre with heq | ⟨c, hvc, hca⟩
            · exact absurd heq.symm ha
            · apply sum_eq_one_of_unique (outTargets track v)
                (fun t => (sSpotH track h t).count (a, b)) c
                (outTargets_nodup track hnd v)
                (edge_mem_outTargets track v c hvc)
                ((hIH c (edge_mem_outTargets track v c hvc) (a, b)).1
                  ⟨hmem, hca⟩)
              intro x hx hxc
              apply (hIH x hx (a, b)).2
              intro ⟨_, hxa⟩
              exact hxc (children_unique track hnd h hdec v x c a hx
                (edge_mem_outTargets track v c hvc) hxa hca)
          rw [hval]
          exact ⟨fun _ => rfl, fun hneg => absurd ⟨hmem, hre⟩ hneg⟩
        · have hval : ((outTargets track v).map
              (fun t => (sSpotH track h t).count (a, b))).sum = 0 := by
            apply sum_indicator_zero
            intro t ht
            apply (hIH t ht (a, b)).2
            intro ⟨_, hta⟩
            exact hre ((Relation.ReflTransGen.single
              (mem_outTargets_edge track v t ht)).trans hta)
          rw [hval]
          exact ⟨fun ⟨_, hre2⟩ => absurd hre2 hre, fun _ => rfl⟩
      · have hval : ((outTargets track v).map
            (fun t => (sSpotH track h t).count (a, b))).sum = 0 := by
          apply sum_indicator_zero
          intro t ht
          exact (hIH t ht (a, b)).2 (fun ⟨hm, _⟩ => hmem hm)
        rw [hval]
        exact ⟨fun ⟨hm, _⟩ => absurd hm hmem, fun _ => rfl⟩

lemma le_foldr_max : ∀ (l : List Nat) (x : Nat), x ∈ l →
    x ≤ l.foldr max 0 := by
  intro l
  induction l with
  | nil => intro x hx; exact absurd hx (List.not_mem_nil x)
  | cons a t ih =>
    intro x hx
    rcases List.mem_cons.mp hx with heq | htail
    · rw [heq]
      exact le_max_left a (t.foldr max 0)
    · exact le_trans (ih x htail) (le_max_right a (t.foldr max 0))

/-- In a track whose multiset root difference is exactly `[r]`, every spot
occurring as a source is reachable from `r` (walk the unique in-edges
backwards; heights strictly increase, bounded by the maximum height of a
source). -/
lemma sources_reachable (track : List (Int × Int)) (h : Int → Nat)
    (hdec : ∀ e ∈ track, h e.2 < h e.1) (r : Int)
    (hus : uniqueSources track = [r]) :
    ∀ (n : Nat) (a : Int), a ∈ track.map Prod.fst →
      (track.map (fun e => h e.1)).foldr max 0 ≤ n + h a →
      Relation.ReflTransGen (fun x y => (x, y) ∈ track) r a := by
  intro n
  induction n with
  | zero =>
    intro a ha hb
    by_cases hat : a ∈ track.map Prod.snd
    · obtain ⟨e, he, he2⟩ := List.mem_map.mp hat
      have hlt : h a < h e.1 := by
        rw [← he2]
        exact hdec e he
      have hle : h e.1 ≤ (track.map (fun e => h e.1)).foldr max 0 :=
        le_foldr_max _ _ (List.mem_map_of_mem (fun e => h e.1) he)
      omega
    · have hmem : a ∈ uniqueSources track := by
        unfold uniqueSources
        rw [List.mem_filter]
        exact ⟨ha, by simpa using hat⟩
      rw [hus, List.mem_singleton] at hmem
      rw [hmem]
  | succ n ih =>
    intro a ha hb
    by_cases hat : a ∈ track.map Prod.snd
    · obtain ⟨e, he, he2⟩ := List.mem_map.mp hat
      have hlt : h a < h e.1 := by
        rw [← he2]
        exact hdec e he
      have hsrc : e.1 ∈ track.map Prod.fst := List.mem_map_of_mem Prod.fst he
      have hrec := ih e.1 hsrc (by omega)
      apply hrec.tail
      rw [← he2, Prod.mk.eta]
      exact he
    · have hmem : a ∈ uniqueSources track := by
        unfold uniqueSources
        rw [List.mem_filter]
        exact ⟨ha, by simpa using hat⟩
      rw [hus, List.mem_singleton] at hmem
      rw [hmem]

/-- The subtree multiset of the root is the whole edge multiset: every edge
of a no-merge acyclic one-root track is traversed exactly once below the
root. -/
lemma sSpotH_root (track : List (Int × Int))
    (hnd : (track.map Prod.snd).Nodup) (h : Int → Nat)
    (hdec : ∀ e ∈ track, h e.2 < h e.1) (r : Int)
    (hus : uniqueSources track = [r]) :
    sSpotH track h r = (↑track : Multiset (Int × Int)) := by
  apply Multiset.ext.mpr
  intro e
  by_cases hmem : e ∈ track
  · have hreach : Relation.ReflTransGen (fun x y => (x, y) ∈ track) r e.1 :=
      sources_reachable track h hdec r hus
        ((track.map (fun e2 => h e2.1)).foldr max 0) e.1
        (List.mem_map_of_mem Prod.fst hmem) (by omega)
    rw [(count_sSpotH track hnd h hdec (h r) r (le_refl _) e).1
      ⟨hmem, hreach⟩]
    exact (Multiset.count_eq_one_of_mem
      (Multiset.coe_nodup.mpr (hnd.of_map Prod.snd))
      (Multiset.mem_coe.mpr hmem)).symm
  · rw [(count_sSpotH track hnd h hdec (h r) r (le_refl _) e).2
      (fun hc => hmem hc.1)]
    exact (Multiset.count_eq_zero_of_not_mem
      (fun hc => hmem (Multiset.mem_coe.mp hc))).symm

lemma count_filter_pos (p : Int → Bool) (a : Int) (hpa : p a = true) :
    ∀ l : List Int, (l.filter p).count a = l.count a := by
  intro l
  induction l with
  | nil => rfl
  | cons x t ih =>
    by_cases hx : p x = true
    · rw [List.filter_cons_of_pos hx, List.count_cons, List.count_cons, ih]
    · rw [List.filter_cons_of_neg (by simpa using hx), List.count_cons, ih]
      have hne : ¬ x = a := fun hc => hx (hc ▸ hpa)
      rw [if_neg (by simpa using hne), Nat.add_zero]

/-- With the code's root check passed, the root occurs exactly once as a
source: the filter selecting its out-edges is a singleton. -/
lemma root_filter (track : List (Int × Int)) (r : Int)
    (hus : uniqueSources track = [r]) :
    ∃ c, track.filter (fun e => e.1 == r) = [(r, c)] := by
  have hp : r ∈ uniqueSources track := by
    rw [hus]
    exact List.mem_singleton_self r
  have hpr : (decide (¬ r ∈ track.map Prod.snd)) = true := by
    unfold uniqueSources at hp
    exact (List.mem_filter.mp hp).2
  have h1 : (uniqueSources track).count r = 1 := by
    rw [hus]
    simp
  unfold uniqueSources at h1
  rw [count_filter_pos _ r hpr] at h1
  have hlen : (track.filter (fun e => e.1 == r)).length = 1 := by
    rw [← List.countP_eq_length_filter]
    have hcp : (track.map Prod.fst).count r =
        track.countP (fun e => e.1 == r) := by
      show (track.map Prod.fst).countP (fun x => x == r) = _
      rw [List.countP_map]
      rfl
    rw [← hcp]
    exact h1
  obtain ⟨e, he⟩ := List.length_eq_one.mp hlen
  have hmem : e ∈ track.filter (fun e2 => e2.1 == r) := by
    rw [he]
    exact List.mem_singleton_self e
  have he1 : e.1 = r := by simpa using (List.mem_filter.mp hmem).2
  refine ⟨e.2, ?_⟩
  rw [he, ← he1, Prod.mk.eta]

lemma cover_init (track : List (Int × Int)) (h : Int → Nat)
    (hdec : ∀ e ∈ track, h e.2 < h e.1) (r c : Int)
    (hfil : track.filter (fun e => e.1 == r) = [(r, c)]) :
    coverState track h [⟨0, 1, [r, c], true⟩] = sSpotH track h r := by
  have hout : outTargets track r = [c] := by
    unfold outTargets
    rw [hfil]
    rfl
  have hs : sSpotH track h r = (r, c) ::ₘ sSpotH track h c := by
    rw [sSpotH_eq track h hdec r, hout]
    show (r, c) ::ₘ sSpotH track h c + 0 = _
    rw [add_zero]
  rw [hs]
  show lineageCover track h (⟨0, 1, [r, c], true⟩ : Lineage) + 0 = _
  rw [add_zero, bare_cover]

/-! ## Claim C4 -/

/-- **C4** (confirmed).  For every track satisfying the data model's
invariants — acyclic (height function), no merges and no duplicate edges
(the target column has no duplicates), exactly one root in the sense of the
code's own check — and `duplicate_split = false` with either `break_split`,
`analysetrackid` terminates, and whenever it returns, the multiset of
consecutive pairs over all returned lineages' spot-id sequences is exactly
the track's edge multiset: every edge covered exactly once.  Proof: each
visit of an active lineage preserves the invariant "edges recorded so far
plus subtree edges below each active lineage's last spot", which starts at
the root's subtree (the whole track) and ends as the recorded edges. -/
theorem C4_edge_coverage (track : List (Int × Int)) (h : Int → Nat)
    (hdec : ∀ e ∈ track, h e.2 < h e.1)
    (hnd : (track.map Prod.snd).Nodup)
    (hroot : (uniqueSources track).length = 1) (brk : Bool) :
    (∃ fuel res, analysetrackid track false brk fuel = some res) ∧
    ∀ fuel res, analysetrackid track false brk fuel = some res →
      resultEdges res = (↑track : Multiset (Int × Int)) := by
  obtain ⟨r, hus⟩ := List.length_eq_one.mp hroot
  have hhead : (uniqueSources track).headD 0 = r := by
    rw [hus]
    rfl
  obtain ⟨c, hfil⟩ := root_filter track r hus
  have hunf : ∀ fuel, analysetrackid track false brk fuel =
      runLoop track false brk fuel [⟨0, 1, [r, c], true⟩] 1 := by
    intro fuel
    show (if (uniqueSources track).length = 1 then
        runLoop track false brk fuel
          [⟨0, 1, ((track.filter
            (fun e => e.1 == (uniqueSources track).headD 0)).map
              (fun e => [e.1, e.2])).flatten, true⟩] 1
      else some []) = _
    rw [if_pos hroot, hhead, hfil]
    rfl
  constructor
  · obtain ⟨fuel, res, hrun⟩ := runLoop_exists track h hdec false brk
      (measureState track h [⟨0, 1, [r, c], true⟩])
      [⟨0, 1, [r, c], true⟩] 1 (le_refl _)
    exact ⟨fuel, res, by rw [hunf fuel]; exact hrun⟩
  · intro fuel res hrun
    rw [hunf fuel] at hrun
    have hcov := runLoop_cover track h hdec brk fuel
      [⟨0, 1, [r, c], true⟩] 1 res hrun
      (by
        intro l hmem
        rw [List.mem_singleton] at hmem
        rw [hmem]
        simp)
    have hinact := runLoop_result_inactive track false brk fuel
      [⟨0, 1, [r, c], true⟩] 1 res hrun
    rw [← coverState_inactive track h res hinact, hcov,
      cover_init track h hdec r c hfil, sSpotH_root track hnd h hdec r hus]

/-- Witness for C4 on a concrete binary tree track. -/
theorem C4_witness :
    ∃ fuel res, analysetrackid [(10, 11), (11, 12), (11, 13)] false false
      fuel = some res :=
  (C4_edge_coverage [(10, 11), (11, 12), (11, 13)]
    (fun v => (14 - v).toNat) (by decide) (by decide) (by decide) false).1

/-! ## Chain lemmas for the policy matrix (C1) -/

lemma chainEdges_map_fst : ∀ (vs : List Int),
    (chainEdges vs).map Prod.fst = vs.dropLast := by
  intro vs
  induction vs with
  | nil => rfl
  | cons a t ih =>
    cases t with
    | nil => rfl
    | cons b t2 =>
      show a :: (chainEdges (b :: t2)).map Prod.fst = a :: (b :: t2).dropLast
      rw [ih]

lemma chainEdges_map_snd : ∀ (vs : List Int),
    (chainEdges vs).map Prod.snd = vs.tail := by
  intro vs
  induction vs with
  | nil => rfl
  | cons a t ih =>
    cases t with
    | nil => rfl
    | cons b t2 =>
      show b :: (chainEdges (b :: t2)).map Prod.snd = b :: t2
      rw [ih]
      rfl

lemma getLastD_mem_cons : ∀ (t : List Int) (b d : Int),
    (b :: t).getLastD d ∈ b :: t := by
  intro t
  induction t with
  | nil => intro b d; simp
  | cons c t2 ih =>
    intro b d
    rw [List.getLastD_cons]
    exact List.mem_cons_of_mem b (ih c b)

lemma chainEdges_filter_not_src (vs : List Int) (a : Int)
    (ha : ¬ a ∈ vs.dropLast) :
    (chainEdges vs).filter (fun e => e.1 == a) = [] := by
  apply List.filter_eq_nil_iff.mpr
  intro e he
  have : e.1 ∈ vs.dropLast := by
    rw [← chainEdges_map_fst]
    exact List.mem_map_of_mem Prod.fst he
  intro hc
  apply ha
  have he1 : e.1 = a := by simpa using hc
  rw [← he1]
  exact this

lemma chainEdges_filter_succ :
    ∀ (done : List Int) (c c2 : Int) (cs : List Int),
    (done ++ c :: c2 :: cs).Nodup →
    (chainEdges (done ++ c :: c2 :: cs)).filter (fun e => e.1 == c) =
      [(c, c2)] := by
  intro done
  induction done with
  | nil =>
    intro c c2 cs hnd
    show ((c, c2) :: chainEdges (c2 :: cs)).filter (fun e => e.1 == c) = _
    rw [List.filter_cons_of_pos (by simp)]
    rw [chainEdges_filter_not_src (c2 :: cs) c]
    intro hc
    have : c ∈ c2 :: cs := List.mem_of_mem_dropLast hc
    exact (List.nodup_cons.mp (by simpa using hnd)).1 this
  | cons d done2 ih =>
    intro c c2 cs hnd
    rw [List.cons_append]
    have hne : done2 ++ c :: c2 :: cs ≠ [] := by
      intro hc
      exact absurd hc (List.append_ne_nil_of_right_ne_nil done2 (by simp))
    obtain ⟨w0, w2, hw⟩ : ∃ w0 w2, done2 ++ c :: c2 :: cs = w0 :: w2 := by
      cases hcase : done2 ++ c :: c2 :: cs with
      | nil => exact absurd hcase hne
      | cons w0 w2 => exact ⟨w0, w2, rfl⟩
    rw [hw]
    show ((d, w0) :: chainEdges (w0 :: w2)).filter (fun e => e.1 == c) = _
    have hnd2 : (d :: (done2 ++ c :: c2 :: cs)).Nodup := by
      rw [← List.cons_append]
      exact hnd
    have hdc : ¬ d = c := by
      intro hc2
      apply (List.nodup_cons.mp hnd2).1
      rw [hc2]
      exact List.mem_append_right done2 (List.mem_cons_self c (c2 :: cs))
    rw [List.filter_cons_of_neg (by simpa using hdc), ← hw]
    exact ih c c2 cs (List.nodup_cons.mp hnd2).2

lemma runPass_cons (track : List (Int × Int)) (dup brk : Bool) (fuel : Nat)
    (ts : List Lineage) (i cell : Nat) (h : i < ts.length) :
    runPass track dup brk (fuel + 1) ts i cell =
      runPass track dup brk fuel
        (ts.set i (stepLineage track dup brk (ts.get ⟨i, h⟩) cell).1 ++
          (stepLineage track dup brk (ts.get ⟨i, h⟩) cell).2.1) (i + 1)
        (stepLineage track dup brk (ts.get ⟨i, h⟩) cell).2.2 := by
  conv_lhs => unfold runPass
  rw [dif_pos h]

lemma runPass_done (track : List (Int × Int)) (dup brk : Bool) (fuel : Nat)
    (ts : List Lineage) (i cell : Nat) (h : ¬ i < ts.length) :
    runPass track dup brk (fuel + 1) ts i cell = some (ts, cell) := by
  unfold runPass
  rw [dif_neg h]

lemma runLoop_unfold_pos (track : List (Int × Int)) (dup brk : Bool)
    (fuel : Nat) (ts ts2 : List Lineage) (cell cell2 : Nat)
    (hpass : runPass track dup brk (fuel + 1) ts 0 cell = some (ts2, cell2))
    (h : ts.any (fun l => l.track) = true) :
    runLoop track dup brk (fuel + 1) ts cell =
      runLoop track dup brk fuel ts2 cell2 := by
  conv_lhs => unfold runLoop
  rw [if_pos h, hpass]

lemma runLoop_done (track : List (Int × Int)) (dup brk : Bool) (fuel : Nat)
    (ts : List Lineage) (cell : Nat)
    (h : ts.any (fun l => l.track) = false) :
    runLoop track dup brk (fuel + 1) ts cell = some ts := by
  unfold runLoop
  rw [h]
  rfl

lemma getLastD_cons_irrel (b : Int) (l : List Int) (d d2 : Int) :
    (b :: l).getLastD d = (b :: l).getLastD d2 := by
  rw [List.getLastD_cons, List.getLastD_cons]

lemma getLastD_append_cons :
    ∀ (l1 : List Int) (b : Int) (l2 : List Int) (d : Int),
    (l1 ++ b :: l2).getLastD d = l2.getLastD b := by
  intro l1
  induction l1 with
  | nil => intro b l2 d; rw [List.nil_append, List.getLastD_cons]
  | cons a l1 ih =>
    intro b l2 d
    rw [List.cons_append, List.getLastD_cons, ih]

lemma getLastD_eq_getLast (vs : List Int) (hne : vs ≠ []) :
    vs.getLastD 0 = vs.getLast hne := by
  conv_lhs => rw [← List.dropLast_append_getLast hne]
  rw [List.getLastD_concat]

lemma chainSplit_filter_succ (done : List Int) (c c2 : Int) (cs : List Int)
    (y z : Int) (hnd : ((done ++ c :: c2 :: cs) ++ [y, z]).Nodup) :
    (chainSplitTrack (done ++ c :: c2 :: cs) y z).filter
      (fun e => e.1 == c) = [(c, c2)] := by
  have hndvs : (done ++ c :: c2 :: cs).Nodup := (List.nodup_append.mp hnd).1
  unfold chainSplitTrack
  rw [List.filter_append, chainEdges_filter_succ done c c2 cs hndvs]
  have hXmem : (done ++ c :: c2 :: cs).getLastD 0 ∈ c2 :: cs := by
    rw [getLastD_append_cons done c (c2 :: cs) 0]
    exact getLastD_mem_cons cs c2 c
  have hcX : ¬ (done ++ c :: c2 :: cs).getLastD 0 = c := by
    intro hc
    have hcs : (c :: c2 :: cs).Nodup :=
      ((List.nodup_append.mp hndvs).2).1
    exact (List.nodup_cons.mp hcs).1 (hc ▸ hXmem)
  rw [List.filter_cons_of_neg (by simpa using hcX),
    List.filter_cons_of_neg (by simpa using hcX)]
  rfl

lemma chainSplit_filter_last (vs : List Int) (y z : Int) (hne : vs ≠ [])
    (hndvs : vs.Nodup) :
    (chainSplitTrack vs y z).filter (fun e => e.1 == vs.getLastD 0) =
      [(vs.getLastD 0, y), (vs.getLastD 0, z)] := by
  unfold chainSplitTrack
  rw [List.filter_append]
  have hnotmem : ¬ vs.getLastD 0 ∈ vs.dropLast := by
    rw [getLastD_eq_getLast vs hne]
    intro hc
    have hsplit : (vs.dropLast ++ [vs.getLast hne]).Nodup := by
      rw [List.dropLast_append_getLast hne]
      exact hndvs
    exact (List.nodup_append.mp hsplit).2.2 hc (List.mem_singleton_self _)
  rw [chainEdges_filter_not_src vs (vs.getLastD 0) hnotmem,
    List.filter_cons_of_pos (by simp), List.filter_cons_of_pos (by simp)]
  rfl

lemma chainSplit_filter_out (vs : List Int) (y z a : Int) (hne : vs ≠ [])
    (ha : ¬ a ∈ vs) :
    (chainSplitTrack vs y z).filter (fun e => e.1 == a) = [] := by
  unfold chainSplitTrack
  rw [List.filter_append]
  have hXa : ¬ vs.getLastD 0 = a := by
    intro hc
    apply ha
    rw [← hc, getLastD_eq_getLast vs hne]
    exact List.getLast_mem hne
  rw [chainEdges_filter_not_src vs a
      (fun hc => ha (List.mem_of_mem_dropLast hc)),
    List.filter_cons_of_neg (by simpa using hXa),
    List.filter_cons_of_neg (by simpa using hXa)]
  rfl

lemma chainSplit_out_succ (done : List Int) (c c2 : Int) (cs : List Int)
    (y z : Int) (hnd : ((done ++ c :: c2 :: cs) ++ [y, z]).Nodup) :
    outTargets (chainSplitTrack (done ++ c :: c2 :: cs) y z) c = [c2] := by
  unfold outTargets
  rw [chainSplit_filter_succ done c c2 cs y z hnd]
  rfl

lemma chainSplit_out_last (vs : List Int) (y z : Int) (hne : vs ≠ [])
    (hndvs : vs.Nodup) :
    outTargets (chainSplitTrack vs y z) (vs.getLastD 0) = [y, z] := by
  unfold outTargets
  rw [chainSplit_filter_last vs y z hne hndvs]
  rfl

lemma chainSplit_out_terminal (vs : List Int) (y z a : Int) (hne : vs ≠ [])
    (ha : ¬ a ∈ vs) :
    outTargets (chainSplitTrack vs y z) a = [] := by
  unfold outTargets
  rw [chainSplit_filter_out vs y z a hne ha]
  rfl

lemma chainSplit_uniqueSources (v0 b : Int) (t : List Int) (y z : Int)
    (hnd : ((v0 :: b :: t) ++ [y, z]).Nodup) :
    uniqueSources (chainSplitTrack (v0 :: b :: t) y z) = [v0] := by
  have hsrc : (chainSplitTrack (v0 :: b :: t) y z).map Prod.fst =
      (v0 :: (b :: t).dropLast) ++
        [(v0 :: b :: t).getLastD 0, (v0 :: b :: t).getLastD 0] := by
    unfold chainSplitTrack
    rw [List.map_append, chainEdges_map_fst]
    rfl
  have htgt : (chainSplitTrack (v0 :: b :: t) y z).map Prod.snd =
      (b :: t) ++ [y, z] := by
    unfold chainSplitTrack
    rw [List.map_append, chainEdges_map_snd]
    rfl
  unfold uniqueSources
  simp only [hsrc, htgt]
  rw [List.filter_append]
  have hv0 : ¬ v0 ∈ (b :: t) ++ [y, z] := by
    have : (v0 :: ((b :: t) ++ [y, z])).Nodup := by
      rw [← List.cons_append]
      exact hnd
    exact (List.nodup_cons.mp this).1
  rw [List.filter_cons_of_pos (by simpa using hv0)]
  have hrest : ((b :: t).dropLast).filter
      (fun s => decide (¬ s ∈ (b :: t) ++ [y, z])) = [] := by
    apply List.filter_eq_nil_iff.mpr
    intro a ha
    simp only [decide_eq_true_eq, Decidable.not_not]
    exact List.mem_append_left [y, z] (List.mem_of_mem_dropLast ha)
  have hX : (v0 :: b :: t).getLastD 0 ∈ (b :: t) ++ [y, z] := by
    apply List.mem_append_left
    rw [List.getLastD_cons]
    exact getLastD_mem_cons t b v0
  have hXfalse : (decide (¬ (v0 :: b :: t).getLastD 0 ∈ (b :: t) ++ [y, z]))
      = false := by
    rw [decide_eq_false_iff_not]
    exact not_not_intro hX
  rw [hrest]
  show v0 :: ([] ++ List.filter _ [(v0 :: b :: t).getLastD 0,
    (v0 :: b :: t).getLastD 0]) = [v0]
  rw [List.nil_append, List.filter_cons_of_neg (by rw [hXfalse]; simp),
    List.filter_cons_of_neg (by rw [hXfalse]; simp)]
  rfl

/-- One advance of the loop on the terminal split state, all four policy
combinations: the split at `X = vs.getLast` into terminal `y` and `z`
resolves in at most two more passes to exactly the policy-matrix output. -/
lemma chain_run_base (vs : List Int) (y z : Int) (dup brk : Bool)
    (houtX : outTargets (chainSplitTrack vs y z) (vs.getLastD 0) = [y, z])
    (houty : outTargets (chainSplitTrack vs y z) y = [])
    (houtz : outTargets (chainSplitTrack vs y z) z = []) :
    runLoop (chainSplitTrack vs y z) dup brk 4 [⟨0, 1, vs, true⟩] 1 =
      some (policyMatrixResult vs y z dup brk) := by
  set track := chainSplitTrack vs y z with htrack
  cases dup with
  | false =>
    cases brk with
    | false =>
      have hstep1 : stepLineage track false false
          (⟨0, 1, vs, true⟩ : Lineage) 1 =
          (⟨0, 1, vs ++ [y], true⟩,
            [⟨1, 2, [vs.getLastD 0, z], true⟩], 2) := by
        rw [stepLineage_split_keep track false (⟨0, 1, vs, true⟩ : Lineage) 1
          y z [] rfl houtX]
        rfl
      have hstep2 : stepLineage track false false
          (⟨1, 2, [vs.getLastD 0, z], true⟩ : Lineage) 2 =
          (⟨1, 2, [vs.getLastD 0, z], false⟩, [], 2) :=
        stepLineage_terminal track false false _ 2 rfl houtz
      have hstep3 : stepLineage track false false
          (⟨0, 1, vs ++ [y], true⟩ : Lineage) 2 =
          (⟨0, 1, vs ++ [y], false⟩, [], 2) :=
        stepLineage_terminal track false false _ 2 rfl
          (by rw [List.getLastD_concat]; exact houty)
      have hpass1 : runPass track false false 4 [⟨0, 1, vs, true⟩] 0 1 =
          some ([⟨0, 1, vs ++ [y], true⟩,
            ⟨1, 2, [vs.getLastD 0, z], false⟩], 2) := by
        rw [runPass_cons track false false 3 _ 0 1 (by norm_num)]
        show runPass track false false 3
          ([⟨0, 1, vs, true⟩].set 0 (stepLineage track false false
            (⟨0, 1, vs, true⟩ : Lineage) 1).1 ++
            (stepLineage track false false
              (⟨0, 1, vs, true⟩ : Lineage) 1).2.1) 1
          (stepLineage track false false (⟨0, 1, vs, true⟩ : Lineage) 1).2.2
          = _
        rw [hstep1]
        show runPass track false false 3
          [⟨0, 1, vs ++ [y], true⟩, ⟨1, 2, [vs.getLastD 0, z], true⟩] 1 2 = _
        rw [runPass_cons track false false 2 _ 1 2 (by norm_num)]
        show runPass track false false 2
          ([⟨0, 1, vs ++ [y], true⟩, ⟨1, 2, [vs.getLastD 0, z], true⟩].set 1
            (stepLineage track false false
              (⟨1, 2, [vs.getLastD 0, z], true⟩ : Lineage) 2).1 ++
            (stepLineage track false false
              (⟨1, 2, [vs.getLastD 0, z], true⟩ : Lineage) 2).2.1) 2
          (stepLineage track false false
            (⟨1, 2, [vs.getLastD 0, z], true⟩ : Lineage) 2).2.2 = _
        rw [hstep2]
        show runPass track false false 2
          [⟨0, 1, vs ++ [y], true⟩, ⟨1, 2, [vs.getLastD 0, z], false⟩] 2 2 = _
        rw [runPass_done track false false 1 _ 2 2 (by norm_num)]
      rw [runLoop_unfold_pos track false false 3 _ _ 1 2 hpass1 (by rfl)]
      have hpass2 : runPass track false false 3
          [⟨0, 1, vs ++ [y], true⟩, ⟨1, 2, [vs.getLastD 0, z], false⟩] 0 2 =
          some ([⟨0, 1, vs ++ [y], false⟩,
            ⟨1, 2, [vs.getLastD 0, z], false⟩], 2) := by
        rw [runPass_cons track false false 2 _ 0 2 (by norm_num)]
        show runPass track false false 2
          ([⟨0, 1, vs ++ [y], true⟩, ⟨1, 2, [vs.getLastD 0, z], false⟩].set 0
            (stepLineage track false false
              (⟨0, 1, vs ++ [y], true⟩ : Lineage) 2).1 ++
            (stepLineage track false false
              (⟨0, 1, vs ++ [y], true⟩ : Lineage) 2).2.1) 1
          (stepLineage track false false
            (⟨0, 1, vs ++ [y], true⟩ : Lineage) 2).2.2 = _
        rw [hstep3]
        show runPass track false false 2
          [⟨0, 1, vs ++ [y], false⟩, ⟨1, 2, [vs.getLastD 0, z], false⟩] 1 2
          = _
        rw [runPass_cons track false false 1 _ 1 2 (by norm_num)]
        show runPass track false false 1
          ([⟨0, 1, vs ++ [y], false⟩, ⟨1, 2, [vs.getLastD 0, z], false⟩].set 1
            (stepLineage track false false
              (⟨1, 2, [vs.getLastD 0, z], false⟩ : Lineage) 2).1 ++
            (stepLineage track false false
              (⟨1, 2, [vs.getLastD 0, z], false⟩ : Lineage) 2).2.1) 2
          (stepLineage track false false
            (⟨1, 2, [vs.getLastD 0, z], false⟩ : Lineage) 2).2.2 = _
        rw [stepLineage_inactive track false false _ 2 rfl]
        show runPass track false false 1
          [⟨0, 1, vs ++ [y], false⟩, ⟨1, 2, [vs.getLastD 0, z], false⟩] 2 2
          = _
        rw [runPass_done track false false 0 _ 2 2 (by norm_num)]
      rw [runLoop_unfold_pos track false false 2 _ _ 2 2 hpass2 (by rfl)]
      rw [runLoop_done track false false 1
        [⟨0, 1, vs ++ [y], false⟩, ⟨1, 2, [vs.getLastD 0, z], false⟩] 2 rfl]
      rfl
    | true =>
      have hstep1 : stepLineage track false true
          (⟨0, 1, vs, true⟩ : Lineage) 1 =
          (⟨0, 1, vs, false⟩,
            [⟨1, 2, [vs.getLastD 0, z], true⟩,
             ⟨1, 3, [vs.getLastD 0, y], true⟩], 3) := by
        rw [stepLineage_split_break track false (⟨0, 1, vs, true⟩ : Lineage)
          1 y z [] rfl houtX]
        rfl
      have hstep2 : stepLineage track false true
          (⟨1, 2, [vs.getLastD 0, z], true⟩ : Lineage) 3 =
          (⟨1, 2, [vs.getLastD 0, z], false⟩, [], 3) :=
        stepLineage_terminal track false true _ 3 rfl houtz
      have hstep3 : stepLineage track false true
          (⟨1, 3, [vs.getLastD 0, y], true⟩ : Lineage) 3 =
          (⟨1, 3, [vs.getLastD 0, y], false⟩, [], 3) :=
        stepLineage_terminal track false true _ 3 rfl houty
      have hpass1 : runPass track false true 4 [⟨0, 1, vs, true⟩] 0 1 =
          some ([⟨0, 1, vs, false⟩, ⟨1, 2, [vs.getLastD 0, z], false⟩,
            ⟨1, 3, [vs.getLastD 0, y], false⟩], 3) := by
        rw [runPass_cons track false true 3 _ 0 1 (by norm_num)]
        show runPass track false true 3
          ([⟨0, 1, vs, true⟩].set 0 (stepLineage track false true
            (⟨0, 1, vs, true⟩ : Lineage) 1).1 ++
            (stepLineage track false true
              (⟨0, 1, vs, true⟩ : Lineage) 1).2.1) 1
          (stepLineage track false true (⟨0, 1, vs, true⟩ : Lineage) 1).2.2
          = _
        rw [hstep1]
        show runPass track false true 3
          [⟨0, 1, vs, false⟩, ⟨1, 2, [vs.getLastD 0, z], true⟩,
           ⟨1, 3, [vs.getLastD 0, y], true⟩] 1 3 = _
        rw [runPass_cons track false true 2 _ 1 3 (by norm_num)]
        show runPass track false true 2
          ([⟨0, 1, vs, false⟩, ⟨1, 2, [vs.getLastD 0, z], true⟩,
            ⟨1, 3, [vs.getLastD 0, y], true⟩].set 1
            (stepLineage track false true
              (⟨1, 2, [vs.getLastD 0, z], true⟩ : Lineage) 3).1 ++
            (stepLineage track false true
              (⟨1, 2, [vs.getLastD 0, z], true⟩ : Lineage) 3).2.1) 2
          (stepLineage track false true
            (⟨1, 2, [vs.getLastD 0, z], true⟩ : Lineage) 3).2.2 = _
        rw [hstep2]
        show runPass track false true 2
          [⟨0, 1, vs, false⟩, ⟨1, 2, [vs.getLastD 0, z], false⟩,
           ⟨1, 3, [vs.getLastD 0, y], true⟩] 2 3 = _
        rw [runPass_cons track false true 1 _ 2 3 (by norm_num)]
        show runPass track false true 1
          ([⟨0, 1, vs, false⟩, ⟨1, 2, [vs.getLastD 0, z], false⟩,
            ⟨1, 3, [vs.getLastD 0, y], true⟩].set 2
            (stepLineage track false true
              (⟨1, 3, [vs.getLastD 0, y], true⟩ : Lineage) 3).1 ++
            (stepLineage track false true
              (⟨1, 3, [vs.getLastD 0, y], true⟩ : Lineage) 3).2.1) 3
          (stepLineage track false true
            (⟨1, 3, [vs.getLastD 0, y], true⟩ : Lineage) 3).2.2 = _
        rw [hstep3]
        show runPass track false true 1
          [⟨0, 1, vs, false⟩, ⟨1, 2, [vs.getLastD 0, z], false⟩,
           ⟨1, 3, [vs.getLastD 0, y], false⟩] 3 3 = _
        rw [runPass_done track false true 0 _ 3 3 (by norm_num)]
      rw [runLoop_unfold_pos track false true 3 _ _ 1 3 hpass1 (by rfl)]
      rw [runLoop_done track false true 2
        [⟨0, 1, vs, false⟩, ⟨1, 2, [vs.getLastD 0, z], false⟩,
         ⟨1, 3, [vs.getLastD 0, y], false⟩] 3 rfl]
      rfl
  | true =>
    cases brk with
    | false =>
      have hstep1 : stepLineage track true false
          (⟨0, 1, vs, true⟩ : Lineage) 1 =
          (⟨0, 1, vs ++ [y], true⟩, [⟨1, 2, vs ++ [z], true⟩], 2) := by
        rw [stepLineage_split_keep track true (⟨0, 1, vs, true⟩ : Lineage) 1
          y z [] rfl houtX]
        rfl
      have hstep2 : stepLineage track true false
          (⟨1, 2, vs ++ [z], true⟩ : Lineage) 2 =
          (⟨1, 2, vs ++ [z], false⟩, [], 2) :=
        stepLineage_terminal track true false _ 2 rfl
          (by rw [List.getLastD_concat]; exact houtz)
      have hstep3 : stepLineage track true false
          (⟨0, 1, vs ++ [y], true⟩ : Lineage) 2 =
          (⟨0, 1, vs ++ [y], false⟩, [], 2) :=
        stepLineage_terminal track true false _ 2 rfl
          (by rw [List.getLastD_concat]; exact houty)
      have hpass1 : runPass track true false 4 [⟨0, 1, vs, true⟩] 0 1 =
          some ([⟨0, 1, vs ++ [y], true⟩, ⟨1, 2, vs ++ [z], false⟩], 2) := by
        rw [runPass_cons track true false 3 _ 0 1 (by norm_num)]
        show runPass track true false 3
          ([⟨0, 1, vs, true⟩].set 0 (stepLineage track true false
            (⟨0, 1, vs, true⟩ : Lineage) 1).1 ++
            (stepLineage track true false
              (⟨0, 1, vs, true⟩ : Lineage) 1).2.1) 1
          (stepLineage track true false (⟨0, 1, vs, true⟩ : Lineage) 1).2.2
          = _
        rw [hstep1]
        show runPass track true false 3
          [⟨0, 1, vs ++ [y], true⟩, ⟨1, 2, vs ++ [z], true⟩] 1 2 = _
        rw [runPass_cons track true false 2 _ 1 2 (by norm_num)]
        show runPass track true false 2
          ([⟨0, 1, vs ++ [y], true⟩, ⟨1, 2, vs ++ [z], true⟩].set 1
            (stepLineage track true false
              (⟨1, 2, vs ++ [z], true⟩ : Lineage) 2).1 ++
            (stepLineage track true false
              (⟨1, 2, vs ++ [z], true⟩ : Lineage) 2).2.1) 2
          (stepLineage track true false
            (⟨1, 2, vs ++ [z], true⟩ : Lineage) 2).2.2 = _
        rw [hstep2]
        show runPass track true false 2
          [⟨0, 1, vs ++ [y], true⟩, ⟨1, 2, vs ++ [z], false⟩] 2 2 = _
        rw [runPass_done track true false 1 _ 2 2 (by norm_num)]
      rw [runLoop_unfold_pos track true false 3 _ _ 1 2 hpass1 (by rfl)]
      have hpass2 : runPass track true false 3
          [⟨0, 1, vs ++ [y], true⟩, ⟨1, 2, vs ++ [z], false⟩] 0 2 =
          some ([⟨0, 1, vs ++ [y], false⟩, ⟨1, 2, vs ++ [z], false⟩], 2) := by
        rw [runPass_cons track true false 2 _ 0 2 (by norm_num)]
        show runPass track true false 2
          ([⟨0, 1, vs ++ [y], true⟩, ⟨1, 2, vs ++ [z], false⟩].set 0
            (stepLineage track true false
              (⟨0, 1, vs ++ [y], true⟩ : Lineage) 2).1 ++
            (stepLineage track true false
              (⟨0, 1, vs ++ [y], true⟩ : Lineage) 2).2.1) 1
          (stepLineage track true false
            (⟨0, 1, vs ++ [y], true⟩ : Lineage) 2).2.2 = _
        rw [hstep3]
        show runPass track true false 2
          [⟨0, 1, vs ++ [y], false⟩, ⟨1, 2, vs ++ [z], false⟩] 1 2 = _
        rw [runPass_cons track true false 1 _ 1 2 (by norm_num)]
        show runPass track true false 1
          ([⟨0, 1, vs ++ [y], false⟩, ⟨1, 2, vs ++ [z], false⟩].set 1
            (stepLineage track true false
              (⟨1, 2, vs ++ [z], false⟩ : Lineage) 2).1 ++
            (stepLineage track true false
              (⟨1, 2, vs ++ [z], false⟩ : Lineage) 2).2.1) 2
          (stepLineage track true false
            (⟨1, 2, vs ++ [z], false⟩ : Lineage) 2).2.2 = _
        rw [stepLineage_inactive track true false _ 2 rfl]
        show runPass track true false 1
          [⟨0, 1, vs ++ [y], false⟩, ⟨1, 2, vs ++ [z], false⟩] 2 2 = _
        rw [runPass_done track true false 0 _ 2 2 (by norm_num)]
      rw [runLoop_unfold_pos track true false 2 _ _ 2 2 hpass2 (by rfl)]
      rw [runLoop_done track true false 1
        [⟨0, 1, vs ++ [y], false⟩, ⟨1, 2, vs ++ [z], false⟩] 2 rfl]
      rfl
    | true =>
      have hstep1 : stepLineage track true true
          (⟨0, 1, vs, true⟩ : Lineage) 1 =
          (⟨0, 1, vs, false⟩,
            [⟨1, 2, vs ++ [z], true⟩, ⟨1, 3, vs ++ [y], true⟩], 3) := by
        rw [stepLineage_split_break track true (⟨0, 1, vs, true⟩ : Lineage)
          1 y z [] rfl houtX]
        rfl
      have hstep2 : stepLineage track true true
          (⟨1, 2, vs ++ [z], true⟩ : Lineage) 3 =
          (⟨1, 2, vs ++ [z], false⟩, [], 3) :=
        stepLineage_terminal track true true _ 3 rfl
          (by rw [List.getLastD_concat]; exact houtz)
      have hstep3 : stepLineage track true true
          (⟨1, 3, vs ++ [y], true⟩ : Lineage) 3 =
          (⟨1, 3, vs ++ [y], false⟩, [], 3) :=
        stepLineage_terminal track true true _ 3 rfl
          (by rw [List.getLastD_concat]; exact houty)
      have hpass1 : runPass track true true 4 [⟨0, 1, vs, true⟩] 0 1 =
          some ([⟨0, 1, vs, false⟩, ⟨1, 2, vs ++ [z], false⟩,
            ⟨1, 3, vs ++ [y], false⟩], 3) := by
        rw [runPass_cons track true true 3 _ 0 1 (by norm_num)]
        show runPass track true true 3
          ([⟨0, 1, vs, true⟩].set 0 (stepLineage track true true
            (⟨0, 1, vs, true⟩ : Lineage) 1).1 ++
            (stepLineage track true true
              (⟨0, 1, vs, true⟩ : Lineage) 1).2.1) 1
          (stepLineage track true true (⟨0, 1, vs, true⟩ : Lineage) 1).2.2
          = _
        rw [hstep1]
        show runPass track true true 3
          [⟨0, 1, vs, false⟩, ⟨1, 2, vs ++ [z], true⟩,
           ⟨1, 3, vs ++ [y], true⟩] 1 3 = _
        rw [runPass_cons track true true 2 _ 1 3 (by norm_num)]
        show runPass track true true 2
          ([⟨0, 1, vs, false⟩, ⟨1, 2, vs ++ [z], true⟩,
            ⟨1, 3, vs ++ [y], true⟩].set 1
            (stepLineage track true true
              (⟨1, 2, vs ++ [z], true⟩ : Lineage) 3).1 ++
            (stepLineage track true true
              (⟨1, 2, vs ++ [z], true⟩ : Lineage) 3).2.1) 2
          (stepLineage track true true
            (⟨1, 2, vs ++ [z], true⟩ : Lineage) 3).2.2 = _
        rw [hstep2]
        show runPass track true true 2
          [⟨0, 1, vs, false⟩, ⟨1, 2, vs ++ [z], false⟩,
           ⟨1, 3, vs ++ [y], true⟩] 2 3 = _
        rw [runPass_cons track true true 1 _ 2 3 (by norm_num)]
        show runPass track true true 1
          ([⟨0, 1, vs, false⟩, ⟨1, 2, vs ++ [z], false⟩,
            ⟨1, 3, vs ++ [y], true⟩].set 2
            (stepLineage track true true
              (⟨1, 3, vs ++ [y], true⟩ : Lineage) 3).1 ++
            (stepLineage track true true
              (⟨1, 3, vs ++ [y], true⟩ : Lineage) 3).2.1) 3
          (stepLineage track true true
            (⟨1, 3, vs ++ [y], true⟩ : Lineage) 3).2.2 = _
        rw [hstep3]
        show runPass track true true 1
          [⟨0, 1, vs, false⟩, ⟨1, 2, vs ++ [z], false⟩,
           ⟨1, 3, vs ++ [y], false⟩] 3 3 = _
        rw [runPass_done track true true 0 _ 3 3 (by norm_num)]
      rw [runLoop_unfold_pos track true true 3 _ _ 1 3 hpass1 (by rfl)]
      rw [runLoop_done track true true 2
        [⟨0, 1, vs, false⟩, ⟨1, 2, vs ++ [z], false⟩,
         ⟨1, 3, vs ++ [y], false⟩] 3 rfl]
      rfl

/-- Walking the pre-split chain: from any position on the chain, the loop
extends the single active lineage one hop per pass until the split resolves
per the policy matrix. -/
lemma chain_run (vs : List Int) (y z : Int)
    (hnd : (vs ++ [y, z]).Nodup) (dup brk : Bool) :
    ∀ (cs done : List Int) (c : Int), vs = done ++ c :: cs →
      runLoop (chainSplitTrack vs y z) dup brk (cs.length + 4)
        [⟨0, 1, done ++ [c], true⟩] 1 =
        some (policyMatrixResult vs y z dup brk) := by
  intro cs
  induction cs with
  | nil =>
    intro done c hvs
    have hne : vs ≠ [] := by
      rw [hvs]
      exact List.append_ne_nil_of_right_ne_nil done (by simp)
    have hndvs : vs.Nodup := (List.nodup_append.mp hnd).1
    have hymem : ¬ y ∈ vs := by
      intro hc
      exact (List.nodup_append.mp hnd).2.2 hc (List.mem_cons_self y [z])
    have hzmem : ¬ z ∈ vs := by
      intro hc
      exact (List.nodup_append.mp hnd).2.2 hc
        (List.mem_cons_of_mem y (List.mem_singleton_self z))
    have houtX : outTargets (chainSplitTrack vs y z) (vs.getLastD 0) =
        [y, z] := chainSplit_out_last vs y z hne hndvs
    have houty : outTargets (chainSplitTrack vs y z) y = [] :=
      chainSplit_out_terminal vs y z y hne hymem
    have houtz : outTargets (chainSplitTrack vs y z) z = [] :=
      chainSplit_out_terminal vs y z z hne hzmem
    rw [← hvs]
    exact chain_run_base vs y z dup brk houtX houty houtz
  | cons c2 cs ih =>
    intro done c hvs
    have hlast : (done ++ [c]).getLastD 0 = c := List.getLastD_concat 0 c done
    have hout : outTargets (chainSplitTrack vs y z) c = [c2] := by
      rw [hvs]
      exact chainSplit_out_succ done c c2 cs y z (hvs ▸ hnd)
    have hstep : stepLineage (chainSplitTrack vs y z) dup brk
        (⟨0, 1, done ++ [c], true⟩ : Lineage) 1 =
        (⟨0, 1, (done ++ [c]) ++ [c2], true⟩, [], 1) :=
      stepLineage_extend (chainSplitTrack vs y z) dup brk _ 1 c2 rfl
        (by rw [hlast]; exact hout)
    have hpass : runPass (chainSplitTrack vs y z) dup brk
        ((cs.length + 4) + 1) [⟨0, 1, done ++ [c], true⟩] 0 1 =
        some ([⟨0, 1, (done ++ [c]) ++ [c2], true⟩], 1) := by
      rw [runPass_cons (chainSplitTrack vs y z) dup brk (cs.length + 4) _
        0 1 (by norm_num)]
      show runPass (chainSplitTrack vs y z) dup brk (cs.length + 4)
        ([⟨0, 1, done ++ [c], true⟩].set 0
          (stepLineage (chainSplitTrack vs y z) dup brk
            (⟨0, 1, done ++ [c], true⟩ : Lineage) 1).1 ++
          (stepLineage (chainSplitTrack vs y z) dup brk
            (⟨0, 1, done ++ [c], true⟩ : Lineage) 1).2.1) 1
        (stepLineage (chainSplitTrack vs y z) dup brk
          (⟨0, 1, done ++ [c], true⟩ : Lineage) 1).2.2 = _
      rw [hstep]
      show runPass (chainSplitTrack vs y z) dup brk (cs.length + 4)
        [⟨0, 1, (done ++ [c]) ++ [c2], true⟩] 1 1 = _
      obtain ⟨m, hm⟩ : ∃ m, cs.length + 4 = m + 1 := ⟨cs.length + 3, rfl⟩
      rw [hm, runPass_done (chainSplitTrack vs y z) dup brk m _ 1 1
        (by norm_num)]
    have hlen : (c2 :: cs).length + 4 = (cs.length + 4) + 1 := by
      rw [List.length_cons]
    rw [hlen, runLoop_unfold_pos (chainSplitTrack vs y z) dup brk
      (cs.length + 4) _ _ 1 1 hpass (by rfl)]
    have hvs2 : vs = (done ++ [c]) ++ c2 :: cs := by
      rw [hvs, List.append_assoc]
      rfl
    exact ih (done ++ [c]) c2 hvs2

/-! ## Claim C1 -/

/-- **C1, counterexample.**  The claim asserts that with
`duplicate_split = false`, `break_split = false`, the second lineage of a
track with one degree-two split at `X` into `Y` and `Z` has spot-id
sequence exactly `[X, Z]`.  On the track `1 → 2`, `2 → 3`, `2 → 4`, `4 → 5`
(one root, one split at `X = 2` into primary `Y = 3` and extra `Z = 4`,
with `Z` not terminal) the code returns the second lineage `[2, 4, 5]`:
the spawned lineage starts bare as `[X, Z]` but is extended along `Z`'s
descendants in the same advance loop, so it is not exactly `[X, Z]`. -/
theorem C1_counterexample :
    (analysetrackid [(1, 2), (2, 3), (2, 4), (4, 5)] false false 20).map
      (List.map Lineage.spotids) = some [[1, 2, 3], [2, 4, 5]] ∧
    ¬ ([[1, 2, 3], [2, 4, 5]] : List (List Int)) = [[1, 2, 3], [2, 4]] := by
  decide

/-- **C1** (corrected).  Amended claim: the policy matrix holds as stated
when the split is *terminal*, i.e. for every track consisting of a simple
chain `v0 → v1 → ... → X` (at least one chain edge, so the root is not
itself the split point — see C5 for the root-split case) followed by
exactly the two split edges `X → y` and `X → z` listed in that order, with
all spot ids distinct.  Then for every policy combination `analysetrackid`
returns exactly the policy-matrix lineages: with `break_split = false`, two
lineages — the root lineage continuing through the primary branch `y`, the
second being `[X, z]` bare or the full prefix plus `z` per
`duplicate_split`; with `break_split = true`, three lineages — the
root-to-`X` lineage terminated at `X` with no post-split spot, and two
children (cells 2 and 3, parent 1) holding `z` and `y` respectively, bare
two-spot sequences or full-prefix copies per `duplicate_split`.
`policyMatrixResult` is the spec-side description of that output; the fuel
`length + 2` suffices for the loop to finish. -/
theorem C1_amended_policy_matrix (v0 v1 : Int) (vrest : List Int)
    (y z : Int) (hnd : ((v0 :: v1 :: vrest) ++ [y, z]).Nodup)
    (dup brk : Bool) :
    analysetrackid (chainSplitTrack (v0 :: v1 :: vrest) y z) dup brk
      ((v0 :: v1 :: vrest).length + 2) =
      some (policyMatrixResult (v0 :: v1 :: vrest) y z dup brk) := by
  have hus : uniqueSources (chainSplitTrack (v0 :: v1 :: vrest) y z) =
      [v0] := chainSplit_uniqueSources v0 v1 vrest y z hnd
  have hfil : (chainSplitTrack (v0 :: v1 :: vrest) y z).filter
      (fun e => e.1 == v0) = [(v0, v1)] :=
    chainSplit_filter_succ [] v0 v1 vrest y z hnd
  show (if (uniqueSources (chainSplitTrack (v0 :: v1 :: vrest) y z)).length
      = 1 then
    runLoop (chainSplitTrack (v0 :: v1 :: vrest) y z) dup brk
      ((v0 :: v1 :: vrest).length + 2)
      [⟨0, 1, (((chainSplitTrack (v0 :: v1 :: vrest) y z).filter
        (fun e => e.1 ==
          (uniqueSources (chainSplitTrack (v0 :: v1 :: vrest) y z)).headD 0)).map
            (fun e => [e.1, e.2])).flatten, true⟩] 1
    else some []) = _
  rw [hus]
  rw [if_pos (show ([v0] : List Int).length = 1 from rfl)]
  show runLoop (chainSplitTrack (v0 :: v1 :: vrest) y z) dup brk
    ((v0 :: v1 :: vrest).length + 2)
    [⟨0, 1, (((chainSplitTrack (v0 :: v1 :: vrest) y z).filter
      (fun e => e.1 == v0)).map (fun e => [e.1, e.2])).flatten, true⟩] 1 = _
  rw [hfil]
  show runLoop (chainSplitTrack (v0 :: v1 :: vrest) y z) dup brk
    ((v0 :: v1 :: vrest).length + 2) [⟨0, 1, [v0, v1], true⟩] 1 = _
  exact chain_run (v0 :: v1 :: vrest) y z hnd dup brk vrest [v0] v1 rfl

/-- Witness for C1 on the smallest chain with a terminal split. -/
theorem C1_amended_witness :
    analysetrackid (chainSplitTrack [1, 2] 3 4) false false
      (([1, 2] : List Int).length + 2) =
      some (policyMatrixResult [1, 2] 3 4 false false) :=
  C1_amended_policy_matrix 1 2 [] 3 4 (by decide) false false
